import Mathlib

/-!
Verification of the proposal evaluation and commit application pipeline of an
MLS (RFC 9420) client core.

The primary source is the proposal filter / applier
(src/aws-mls/src/group/proposal_filter/filtering.rs) and the basic identity
provider (src/aws-mls/src/identity/basic.rs).  Those files are embedded
definition by definition.  Collaborator components that the repository slice
does not include (the ratchet tree, the proposal bundle container, the
leaf-node and key-package validators, the adapter traits) are modelled from
the specification, as flagged in the corresponding doc comments.

Machine integers (u16 proposal and extension types, u32 leaf indices) are
modelled as Nat: the code never performs arithmetic on them, only equality
comparisons and table lookups, so no overflow is observable.  Byte strings
are modelled as List Nat.  Async adapter calls are modelled as function-valued
fields of the applier context returning their results directly; the code
treats them as black boxes.
-/

namespace MlsFiltering

/-! ## Basic protocol data -/

/-- Proposal type codepoints, from the RFC 9420 registry used by the source
(u16 newtype constants ADD, UPDATE, REMOVE, PSK, RE_INIT, EXTERNAL_INIT,
GROUP_CONTEXT_EXTENSIONS). -/
def ptAdd : Nat := 1

def ptUpdate : Nat := 2

def ptRemove : Nat := 3

def ptPsk : Nat := 4

def ptReInit : Nat := 5

def ptExternalInit : Nat := 6

def ptGroupContextExtensions : Nat := 7

/-- Sender of a proposal or commit (enum Sender in the source). -/
inductive Sender where
  | member (i : Nat)
  | external (i : Nat)
  | newMemberProposal
  | newMemberCommit
deriving DecidableEq, Repr

/-- Credential carried by a signing identity.  Modelled from the spec:
the credential enum of aws-mls-core is not under src/; the basic variant
carries an identifier byte string, other variants are represented by their
credential type codepoint and payload. -/
inductive Credential where
  | basic (identifier : List Nat)
  | x509 (data : List Nat)
  | custom (ctype : Nat) (data : List Nat)
deriving DecidableEq, Repr

/-- Credential type codepoint (basic = 1, x509 = 2 per the registry). -/
def Credential.credentialType : Credential → Nat
  | .basic _ => 1
  | .x509 _ => 2
  | .custom t _ => t

/-- as_basic accessor of the credential enum. -/
def Credential.asBasic : Credential → Option (List Nat)
  | .basic identifier => some identifier
  | _ => none

/-- A member's signing identity: credential plus signature public key. -/
structure SigningIdentity where
  credential : Credential
  signaturePublicKey : List Nat
deriving DecidableEq, Repr

/-! ## Extensions -/

/-- Required capabilities extension: lists of extension types, proposal types
and credential types every member must advertise. -/
structure RequiredCapabilitiesExt where
  extensions : List Nat
  proposals : List Nat
  credentials : List Nat
deriving DecidableEq, Repr

/-- External senders extension: the signing identities allowed to send
external proposals. -/
structure ExternalSendersExt where
  allowedSenders : List SigningIdentity
deriving DecidableEq, Repr

/-- Payload of one extension entry.  A typed extension decodes to its
structured form; blobData stands for any payload that does not decode as the
queried typed extension. -/
inductive ExtPayload where
  | reqCaps (rc : RequiredCapabilitiesExt)
  | extSenders (es : ExternalSendersExt)
  | blobData (data : List Nat)
deriving DecidableEq, Repr

/-- One extension entry: type codepoint plus payload. -/
structure Extension where
  extType : Nat
  payload : ExtPayload
deriving DecidableEq, Repr

/-- An extension list (ExtensionList in the source). -/
abbrev ExtensionList := List Extension

/-- Extension type codepoint of the required capabilities extension
(RFC 9420 registry value 3). -/
def etRequiredCapabilities : Nat := 3

/-- Extension type codepoint of the external senders extension
(RFC 9420 registry value 5). -/
def etExternalSenders : Nat := 5

/-- Modelled from the spec: ExtensionType::is_default of aws-mls-core is not
under src/; the default extension types are the five RFC-defined ones
(application id, ratchet tree, required capabilities, external pub,
external senders), codepoints 1 through 5. -/
def extTypeIsDefault (t : Nat) : Bool := decide (1 ≤ t ∧ t ≤ 5)

/-! ## Errors -/

/-- Ratchet tree errors surfaced through the applier (RatchetTreeError). -/
inductive RatchetTreeError where
  | leafNotFound (i : Nat)
  | duplicateLeafData
  | invalidLeaf (i : Nat)
  | credentialValidationError
deriving DecidableEq, Repr

/-- Error taxonomy of the proposal filter (ProposalFilterError). -/
inductive ProposalFilterError where
  | invalidProposalTypeForSender (proposalType : Nat) (sender : Sender) (byRef : Bool)
  | externalSenderCannotCommit
  | onlyMembersCanCommitProposalsByRef
  | invalidMemberProposer (i : Nat)
  | invalidExternalSenderIndex (i : Nat)
  | externalSenderWithoutExternalSendersExtension
  | invalidCommitSelfUpdate
  | committerSelfRemoval
  | moreThanOneProposalForLeaf (i : Nat)
  | moreThanOneGroupContextExtensionsProposal
  | invalidProtocolVersionInReInit (proposed original : Nat)
  | otherProposalWithReInit
  | externalCommitMustHaveNewLeaf
  | externalCommitMustHaveExactlyOneExternalInit
  | externalCommitWithMoreThanOneRemove
  | externalCommitRemovesOtherIdentity
  | invalidProposalTypeInExternalCommit (t : Nat)
  | invalidTypeOrUsageInPreSharedKeyProposal
  | invalidPskNonceLength (expected found : Nat)
  | duplicatePskIds
  | pskIdValidationError
  | unsupportedGroupExtension (t : Nat)
  | unsupportedCustomProposal (t : Nat)
  | ratchetTree (e : RatchetTreeError)
  | identityProviderError
  | extensionError
  | leafNodeValidationError
  | keyPackageValidationError
deriving DecidableEq, Repr

/-- Decode the required capabilities extension out of an extension list
(ExtensionList::get_as::<RequiredCapabilitiesExt>): Ok none when absent,
Ok some when present and decodable, Err when the entry does not decode. -/
def getRequiredCapabilities (l : ExtensionList) :
    Except ProposalFilterError (Option RequiredCapabilitiesExt) :=
  match l.find? (fun e => decide (e.extType = etRequiredCapabilities)) with
  | none => .ok none
  | some e =>
    match e.payload with
    | .reqCaps rc => .ok (some rc)
    | _ => .error .extensionError

/-- Decode the external senders extension out of an extension list
(ExtensionList::get_as::<ExternalSendersExt>). -/
def getExternalSenders (l : ExtensionList) :
    Except ProposalFilterError (Option ExternalSendersExt) :=
  match l.find? (fun e => decide (e.extType = etExternalSenders)) with
  | none => .ok none
  | some e =>
    match e.payload with
    | .extSenders es => .ok (some es)
    | _ => .error .extensionError

/-! ## Leaves, key packages and the ratchet tree -/

/-- Capability advertisement of a leaf. -/
structure Capabilities where
  protocolVersions : List Nat
  cipherSuites : List Nat
  extensions : List Nat
  proposals : List Nat
  credentials : List Nat
deriving DecidableEq, Repr

/-- A member's public leaf node.  Modelled from the spec: the LeafNode type
lives in the tree_kem module, not under src/.  The signature, lifetime and
leaf-source fields are absorbed into the abstract validation adapters of the
applier context, since no claim inspects them individually. -/
structure LeafNode where
  publicKey : List Nat
  signingIdentity : SigningIdentity
  capabilities : Capabilities
  extensions : ExtensionList
deriving DecidableEq, Repr

/-- A key package envelope carrying a leaf node for addition.  Modelled from
the spec; the envelope's own version/ciphersuite/signature fields are
absorbed into the abstract key-package validation adapter. -/
structure KeyPackage where
  leafNode : LeafNode
deriving DecidableEq, Repr

/-- Modelled from the spec: TreeKemPublic is not under src/.  The tree is a
densely packed vector of optional leaf slots (blank = none).  Parent nodes,
unmerged-leaf lists and hashes are omitted: no claim under proof observes
them, and the per-operation validation that involves them (parent hash,
signatures) is abstracted into the validation adapters. -/
structure TreeKemPublic where
  leaves : List (Option LeafNode)
deriving DecidableEq, Repr

/-- get_leaf_node: the leaf at an index, failing when absent or blank. -/
def TreeKemPublic.getLeafNode (t : TreeKemPublic) (i : Nat) :
    Except RatchetTreeError LeafNode :=
  match t.leaves.get? i with
  | some (some l) => .ok l
  | _ => .error (.leafNotFound i)

/-- non_empty_leaves: index/leaf pairs of the non-blank slots. -/
def TreeKemPublic.nonEmptyLeaves (t : TreeKemPublic) : List (Nat × LeafNode) :=
  t.leaves.enum.filterMap (fun p => p.2.map (fun l => (p.1, l)))

/-- can_support_proposal: every non-blank leaf advertises the custom
proposal type (spec rule 12). -/
def TreeKemPublic.canSupportProposal (t : TreeKemPublic) (pt : Nat) : Bool :=
  t.nonEmptyLeaves.all (fun p => decide (pt ∈ p.2.capabilities.proposals))

/-- Replace (or blank) the slot at an index. -/
def TreeKemPublic.setLeaf (t : TreeKemPublic) (i : Nat) (v : Option LeafNode) :
    TreeKemPublic :=
  ⟨t.leaves.set i v⟩

/-- Index of the leftmost blank slot, if any. -/
def TreeKemPublic.leftmostBlank (t : TreeKemPublic) : Option Nat :=
  (t.leaves.enum.find? (fun p => p.2.isNone)).map Prod.fst

/-- Whether some non-blank leaf duplicates the signing identity or HPKE key
of a candidate leaf (the uniqueness rule of add_leaves). -/
def TreeKemPublic.hasDuplicateOf (t : TreeKemPublic) (leaf : LeafNode) : Bool :=
  t.nonEmptyLeaves.any (fun p =>
    decide (p.2.signingIdentity = leaf.signingIdentity) ||
    decide (p.2.publicKey = leaf.publicKey))

/-! ## Proposals and the proposal bundle -/

/-- Add proposal: a key package to insert. -/
structure AddProposal where
  keyPackage : KeyPackage
deriving DecidableEq, Repr

/-- Update proposal: a fresh leaf for the proposal's own sender. -/
structure UpdateProposal where
  leafNode : LeafNode
deriving DecidableEq, Repr

/-- Remove proposal: the leaf index to blank. -/
structure RemoveProposal where
  toRemove : Nat
deriving DecidableEq, Repr

/-- Usage tag of a resumption pre-shared key. -/
inductive ResumptionPSKUsage where
  | application
  | reinit
  | branch
deriving DecidableEq, Repr

/-- Resumption PSK identifier. -/
structure ResumptionPsk where
  usage : ResumptionPSKUsage
  pskGroupId : List Nat
  pskEpoch : Nat
deriving DecidableEq, Repr

/-- The key identity inside a pre-shared key id (JustPreSharedKeyID). -/
inductive JustPreSharedKeyID where
  | external (id : List Nat)
  | resumption (r : ResumptionPsk)
deriving DecidableEq, Repr

/-- Full pre-shared key id: key identity plus nonce (PreSharedKeyID). -/
structure PreSharedKeyID where
  keyId : JustPreSharedKeyID
  pskNonce : List Nat
deriving DecidableEq, Repr

/-- PSK proposal. -/
structure PreSharedKeyProposal where
  psk : PreSharedKeyID
deriving DecidableEq, Repr

/-- ReInit proposal (only the fields read by the filter matter). -/
structure ReInitProposal where
  groupId : List Nat
  version : Nat
  cipherSuite : Nat
  extensions : ExtensionList
deriving DecidableEq, Repr

/-- External init proposal. -/
structure ExternalInit where
  kemOutput : List Nat
deriving DecidableEq, Repr

/-- Custom proposal: its type codepoint and payload. -/
structure CustomProposal where
  proposalType : Nat
  data : List Nat
deriving DecidableEq, Repr

/-- A proposal together with its sender and by-reference flag
(ProposalInfo; byRef models proposal_ref.is_some()). -/
structure ProposalInfo (α : Type) where
  proposal : α
  sender : Sender
  byRef : Bool
deriving DecidableEq, Repr

/-- Modelled from the spec: ProposalBundle is not under src/.  The bundle is
a heterogeneous ordered multiset with typed iteration and per-type stable
indices, which is exactly a record of per-type ordered lists. -/
structure ProposalBundle where
  additions : List (ProposalInfo AddProposal)
  updates : List (ProposalInfo UpdateProposal)
  removals : List (ProposalInfo RemoveProposal)
  psks : List (ProposalInfo PreSharedKeyProposal)
  reinits : List (ProposalInfo ReInitProposal)
  extInits : List (ProposalInfo ExternalInit)
  groupContextExts : List (ProposalInfo ExtensionList)
  customs : List (ProposalInfo CustomProposal)
deriving DecidableEq, Repr

/-- The bundle with no proposals. -/
def ProposalBundle.empty : ProposalBundle := ⟨[], [], [], [], [], [], [], []⟩

/-- proposal_types: the type codepoint of every proposal in the bundle. -/
def ProposalBundle.proposalTypes (b : ProposalBundle) : List Nat :=
  b.additions.map (fun _ => ptAdd) ++ b.updates.map (fun _ => ptUpdate) ++
  b.removals.map (fun _ => ptRemove) ++ b.psks.map (fun _ => ptPsk) ++
  b.reinits.map (fun _ => ptReInit) ++ b.extInits.map (fun _ => ptExternalInit) ++
  b.groupContextExts.map (fun _ => ptGroupContextExtensions) ++
  b.customs.map (fun p => p.proposal.proposalType)

/-- group_context_extensions_proposal: the first group-context-extensions
proposal of the bundle, if any. -/
def ProposalBundle.groupContextExtensionsProposal (b : ProposalBundle) :
    Option (ProposalInfo ExtensionList) :=
  b.groupContextExts.head?

/-- clear_group_context_extensions. -/
def ProposalBundle.clearGroupContextExtensions (b : ProposalBundle) : ProposalBundle :=
  { b with groupContextExts := [] }

/-- Whether any proposal of the bundle is by reference (the check iterated
by ensure_no_proposal_by_ref). -/
def ProposalBundle.anyByRef (b : ProposalBundle) : Bool :=
  b.additions.any (·.byRef) || b.updates.any (·.byRef) ||
  b.removals.any (·.byRef) || b.psks.any (·.byRef) ||
  b.reinits.any (·.byRef) || b.extInits.any (·.byRef) ||
  b.groupContextExts.any (·.byRef) || b.customs.any (·.byRef)

/-! ## Filter strategy -/

/-- The two concrete filter strategies. -/
inductive FilterStrategy where
  | failInvalidProposal
  | ignoreInvalidByRefProposal
deriving DecidableEq, Repr

/-- FilterStrategy::ignore applied to a proposal's by-reference flag:
FailInvalidProposal never ignores, IgnoreInvalidByRefProposal ignores
exactly the by-reference proposals. -/
def FilterStrategy.ignoreRef : FilterStrategy → Bool → Bool
  | .failInvalidProposal, _ => false
  | .ignoreInvalidByRefProposal, byRef => byRef

/-- apply_strategy: an Ok rule result keeps the proposal; an Err result
drops it when the strategy ignores it and aborts the batch otherwise. -/
def applyStrategy (s : FilterStrategy) (byRef : Bool)
    (r : Except ProposalFilterError Unit) : Except ProposalFilterError Bool :=
  match r with
  | .ok _ => .ok true
  | .error e => if s.ignoreRef byRef then .ok false else .error e

/-- Effectful retain: keeps the elements on which the check returns Ok true,
drops those returning Ok false and aborts on the first Err
(Vec::retain with a fallible closure, as used by retain_by_type). -/
def retainE {α : Type} (f : α → Except ProposalFilterError Bool) :
    List α → Except ProposalFilterError (List α)
  | [] => .ok []
  | x :: xs => do
    let keep ← f x
    let rest ← retainE f xs
    pure (if keep then x :: rest else rest)

/-- Result::and on unit results: first error wins, else the second result. -/
def exceptAnd (a b : Except ProposalFilterError Unit) :
    Except ProposalFilterError Unit :=
  match a with
  | .ok _ => b
  | .error e => .error e

/-! ## Adapters and the applier context -/

/-- Ciphersuite provider interface slice used by the filter. -/
structure CipherSuiteProviderM where
  kdfExtractSize : Nat

/-- Modelled from the spec: the IdentityProvider trait is a pluggable
capability; its behavior is a parameter of the development.  Boolean results
model accept/reject, Except results model the adapter failing outright. -/
structure IdentityProviderM where
  validateExternalSenderOk : SigningIdentity → Option Nat → Bool
  validSuccessor : SigningIdentity → SigningIdentity → Except Unit Bool

/-- Modelled from the spec: the ExternalPskIdValidator capability. -/
structure ExternalPskIdValidatorM where
  validateOk : List Nat → Bool

/-- The proposal applier (struct ProposalApplier) plus the abstract behavior
of the collaborator validators that are not under src/: leafUpdateOk models
LeafNodeValidator::check_if_valid in Update context except its
required-capabilities part (kept concrete below), keyPackageOk models
KeyPackageValidator::check_if_valid likewise, treeUpdateOk the tree-side
validation performed by batch_edit on an update, and addLeafOk the identity
validation performed on an added leaf. -/
structure ApplierCtx where
  originalTree : TreeKemPublic
  protocolVersion : Nat
  cipherSuite : CipherSuiteProviderM
  groupId : List Nat
  originalGroupExtensions : ExtensionList
  originalRequiredCapabilities : Option RequiredCapabilitiesExt
  externalLeaf : Option LeafNode
  identityProvider : IdentityProviderM
  externalPskIdValidator : ExternalPskIdValidatorM
  leafUpdateOk : LeafNode → Nat → Option Nat → Bool
  keyPackageOk : KeyPackage → Option Nat → Bool
  treeUpdateOk : Nat → LeafNode → Bool
  addLeafOk : LeafNode → Bool

/-- The applier's intermediate result (struct ProposalState). -/
structure ProposalState where
  tree : TreeKemPublic
  proposals : ProposalBundle
  addedIndexes : List Nat
  removedLeaves : List (Nat × LeafNode)
  externalLeafIndex : Option Nat
deriving DecidableEq, Repr

/-- ProposalState::new: a fresh state over a working tree. -/
def ProposalState.new (tree : TreeKemPublic) (proposals : ProposalBundle) :
    ProposalState :=
  ⟨tree, proposals, [], [], none⟩

/-- Clear the group-context-extensions proposals of a state's bundle. -/
def ProposalState.clearGce (st : ProposalState) : ProposalState :=
  { st with proposals := st.proposals.clearGroupContextExtensions }

/-! ## Proposer authorization (rules 1 and 2) -/

/-- proposer_can_propose, translated clause by clause from the source match
on (proposer, by_ref). -/
def proposerCanPropose (proposer : Sender) (proposalType : Nat) (byRef : Bool) :
    Bool :=
  match proposer, byRef with
  | .member _, false =>
    decide (proposalType = ptAdd) || decide (proposalType = ptRemove) ||
    decide (proposalType = ptPsk) || decide (proposalType = ptReInit) ||
    decide (proposalType = ptGroupContextExtensions)
  | .member _, true =>
    decide (proposalType = ptAdd) || decide (proposalType = ptUpdate) ||
    decide (proposalType = ptRemove) || decide (proposalType = ptPsk) ||
    decide (proposalType = ptReInit) ||
    decide (proposalType = ptGroupContextExtensions)
  | .external _, false => false
  | .external _, true =>
    decide (proposalType = ptAdd) || decide (proposalType = ptRemove) ||
    decide (proposalType = ptReInit)
  | .newMemberCommit, false =>
    decide (proposalType = ptRemove) || decide (proposalType = ptPsk) ||
    decide (proposalType = ptExternalInit)
  | .newMemberCommit, true => false
  | .newMemberProposal, false => false
  | .newMemberProposal, true => decide (proposalType = ptAdd)

/-- validate_sender: a Member sender must be a non-blank leaf, an External
sender must index into the external_senders extension, new-member senders
are always valid. -/
def validateSender (tree : TreeKemPublic) (externalSenders : Option ExternalSendersExt)
    (sender : Sender) : Except ProposalFilterError Unit :=
  match sender with
  | .member i =>
    match tree.getLeafNode i with
    | .ok _ => .ok ()
    | .error _ => .error (.invalidMemberProposer i)
  | .external i =>
    match externalSenders with
    | none => .error .externalSenderWithoutExternalSendersExtension
    | some ext =>
      if i < ext.allowedSenders.length then .ok ()
      else .error (.invalidExternalSenderIndex i)
  | .newMemberCommit => .ok ()
  | .newMemberProposal => .ok ()

/-- The per-proposal rule applied by validate_proposer: authorization by
proposer_can_propose, then sender resolution. -/
def validateProposerRes (tree : TreeKemPublic)
    (externalSenders : Option ExternalSendersExt) (proposalType : Nat)
    (sender : Sender) (byRef : Bool) : Except ProposalFilterError Unit :=
  if proposerCanPropose sender proposalType byRef then
    validateSender tree externalSenders sender
  else
    .error (.invalidProposalTypeForSender proposalType sender byRef)

/-- validate_proposer for one typed proposal list. -/
def validateProposerRetain {α : Type} (s : FilterStrategy) (tree : TreeKemPublic)
    (externalSenders : Option ExternalSendersExt) (proposalType : Nat)
    (l : List (ProposalInfo α)) :
    Except ProposalFilterError (List (ProposalInfo α)) :=
  retainE (fun p =>
    applyStrategy s p.byRef (validateProposerRes tree externalSenders proposalType p.sender p.byRef)) l

/-- filter_out_invalid_proposers: validate_proposer over the seven standard
proposal types (custom proposals are handled at the end of the pipeline). -/
def filterOutInvalidProposers (s : FilterStrategy) (tree : TreeKemPublic)
    (groupContextExtensions : ExtensionList) (b : ProposalBundle) :
    Except ProposalFilterError ProposalBundle := do
  let externalSenders :=
    match getExternalSenders groupContextExtensions with
    | .ok o => o
    | .error _ => none
  let adds ← validateProposerRetain s tree externalSenders ptAdd b.additions
  let ups ← validateProposerRetain s tree externalSenders ptUpdate b.updates
  let rems ← validateProposerRetain s tree externalSenders ptRemove b.removals
  let psks ← validateProposerRetain s tree externalSenders ptPsk b.psks
  let reinits ← validateProposerRetain s tree externalSenders ptReInit b.reinits
  let extInits ← validateProposerRetain s tree externalSenders ptExternalInit b.extInits
  let gces ← validateProposerRetain s tree externalSenders ptGroupContextExtensions b.groupContextExts
  pure { b with additions := adds, updates := ups, removals := rems,
                psks := psks, reinits := reinits, extInits := extInits,
                groupContextExts := gces }

/-! ## Batch rules (rules 3 to 9) -/

/-- filter_out_update_for_committer: any Update whose own sender equals the
commit sender fails with InvalidCommitSelfUpdate. -/
def filterOutUpdateForCommitter (s : FilterStrategy) (commitSender : Nat)
    (b : ProposalBundle) : Except ProposalFilterError ProposalBundle := do
  let ups ← retainE (fun p =>
    applyStrategy s p.byRef
      (if p.sender = Sender.member commitSender then .error .invalidCommitSelfUpdate
       else .ok ())) b.updates
  pure { b with updates := ups }

/-- filter_out_removal_of_committer: any Remove targeting the commit sender
fails with CommitterSelfRemoval. -/
def filterOutRemovalOfCommitter (s : FilterStrategy) (commitSender : Nat)
    (b : ProposalBundle) : Except ProposalFilterError ProposalBundle := do
  let rems ← retainE (fun p =>
    applyStrategy s p.byRef
      (if p.proposal.toRemove = commitSender then .error .committerSelfRemoval
       else .ok ())) b.removals
  pure { b with removals := rems }

/-- Removal phase of filter_out_extra_removal_or_update_for_same_leaf:
a Remove whose target is already in the seen set offends; the set always
records the target (HashSet::insert). -/
def goRemovalsSameLeaf (s : FilterStrategy) (seen : List Nat) :
    List (ProposalInfo RemoveProposal) →
    Except ProposalFilterError (List (ProposalInfo RemoveProposal) × List Nat)
  | [] => .ok ([], seen)
  | p :: ps =>
    let li := p.proposal.toRemove
    if li ∈ seen then
      if s.ignoreRef p.byRef then goRemovalsSameLeaf s seen ps
      else .error (.moreThanOneProposalForLeaf li)
    else do
      let (rest, seenF) ← goRemovalsSameLeaf s (li :: seen) ps
      pure (p :: rest, seenF)

/-- The last index at or after position n holding an Update from the given
Member leaf: the content of the HashMap built by the first pass of the
same-leaf filter, where each insert overwrites, so the last insert per leaf
wins. -/
def lastIdxFrom (leaf : Nat) (n : Nat) :
    List (ProposalInfo UpdateProposal) → Option Nat
  | [] => none
  | p :: ps =>
    match lastIdxFrom leaf (n + 1) ps with
    | some j => some j
    | none => if p.sender = Sender.member leaf then some n else none

/-- The last index holding an Update from the given Member leaf. -/
def lastUpdateIdx (ups : List (ProposalInfo UpdateProposal)) (leaf : Nat) :
    Option Nat :=
  lastIdxFrom leaf 0 ups

/-- Update phase of the same-leaf filter: a Member update is kept only when
it is the last update of that sender and its leaf was not already touched;
the seen set records its leaf only in that case (short-circuiting &&).
Updates from non-Member senders are kept without any check. -/
def goUpdatesSameLeaf (s : FilterStrategy)
    (lastIdx : Nat → Option Nat) (seen : List Nat) (idx : Nat) :
    List (ProposalInfo UpdateProposal) →
    Except ProposalFilterError (List (ProposalInfo UpdateProposal))
  | [] => .ok []
  | p :: ps =>
    match p.sender with
    | .member i =>
      if lastIdx i = some idx ∧ i ∉ seen then do
        let rest ← goUpdatesSameLeaf s lastIdx (i :: seen) (idx + 1) ps
        pure (p :: rest)
      else if s.ignoreRef p.byRef then
        goUpdatesSameLeaf s lastIdx seen (idx + 1) ps
      else .error (.moreThanOneProposalForLeaf i)
    | _ => do
      let rest ← goUpdatesSameLeaf s lastIdx seen (idx + 1) ps
      pure (p :: rest)

/-- filter_out_extra_removal_or_update_for_same_leaf (rule 5). -/
def filterOutExtraRemovalOrUpdateForSameLeaf (s : FilterStrategy)
    (b : ProposalBundle) : Except ProposalFilterError ProposalBundle := do
  let (rems, seen) ← goRemovalsSameLeaf s [] b.removals
  let ups ← goUpdatesSameLeaf s (lastUpdateIdx b.updates) seen 0 b.updates
  pure { b with removals := rems, updates := ups }

/-- Extra group-context-extensions phase: the first proposal passes, every
later one fails with MoreThanOneGroupContextExtensionsProposal
(mem::replace sets the found flag on every visit). -/
def goExtraGce (s : FilterStrategy) (found : Bool) :
    List (ProposalInfo ExtensionList) →
    Except ProposalFilterError (List (ProposalInfo ExtensionList))
  | [] => .ok []
  | p :: ps => do
    let keep ← applyStrategy s p.byRef
      (if found then .error .moreThanOneGroupContextExtensionsProposal else .ok ())
    let rest ← goExtraGce s true ps
    pure (if keep then p :: rest else rest)

/-- filter_out_extra_group_context_extensions (rule 6). -/
def filterOutExtraGroupContextExtensions (s : FilterStrategy)
    (b : ProposalBundle) : Except ProposalFilterError ProposalBundle := do
  let gces ← goExtraGce s false b.groupContextExts
  pure { b with groupContextExts := gces }

/-- filter_out_invalid_reinit (rule 7): the proposed version must be at
least the current protocol version. -/
def filterOutInvalidReinit (s : FilterStrategy) (b : ProposalBundle)
    (protocolVersion : Nat) : Except ProposalFilterError ProposalBundle := do
  let reinits ← retainE (fun p =>
    applyStrategy s p.byRef
      (if protocolVersion ≤ p.proposal.version then .ok ()
       else .error (.invalidProtocolVersionInReInit p.proposal.version protocolVersion)))
    b.reinits
  pure { b with reinits := reinits }

/-- ReInit-alone phase: every ReInit offends unless every proposal of the
bundle is a ReInit and it is the first one. -/
def goReinitAlone (s : FilterStrategy) (hasOnlyReinit : Bool) (found : Bool) :
    List (ProposalInfo ReInitProposal) →
    Except ProposalFilterError (List (ProposalInfo ReInitProposal))
  | [] => .ok []
  | p :: ps => do
    let keep ← applyStrategy s p.byRef
      (if hasOnlyReinit ∧ ¬found then .ok () else .error .otherProposalWithReInit)
    let rest ← goReinitAlone s hasOnlyReinit true ps
    pure (if keep then p :: rest else rest)

/-- filter_out_reinit_if_other_proposals (rule 8). -/
def filterOutReinitIfOtherProposals (s : FilterStrategy) (b : ProposalBundle) :
    Except ProposalFilterError ProposalBundle := do
  let hasOnlyReinit := b.proposalTypes.all (fun t => decide (t = ptReInit))
  let reinits ← goReinitAlone s hasOnlyReinit false b.reinits
  pure { b with reinits := reinits }

/-- filter_out_external_init (rule 9): external-init proposals are always
invalid for a Member commit sender. -/
def filterOutExternalInit (s : FilterStrategy) (commitSender : Nat)
    (b : ProposalBundle) : Except ProposalFilterError ProposalBundle := do
  let extInits ← retainE (fun p =>
    applyStrategy s p.byRef
      (.error (.invalidProposalTypeForSender ptExternalInit
        (Sender.member commitSender) p.byRef))) b.extInits
  pure { b with extInits := extInits }

/-! ## PSK rules (rule 10) -/

/-- The per-proposal PSK rule of filter_out_invalid_psks, evaluated against
the set of pre-shared-key ids seen so far: type/usage first, then nonce
length against the kdf-extract size, then duplicate full id, then the
external adapter. -/
def pskCheckRes (kdfExtractSize : Nat) (v : ExternalPskIdValidatorM)
    (seen : List PreSharedKeyID) (p : ProposalInfo PreSharedKeyProposal) :
    Except ProposalFilterError Unit :=
  let valid :=
    match p.proposal.psk.keyId with
    | .external _ => true
    | .resumption r => decide (r.usage = ResumptionPSKUsage.application)
  let nonceLength := p.proposal.psk.pskNonce.length
  let externalIdIsValid : Except ProposalFilterError Unit :=
    match p.proposal.psk.keyId with
    | .external id =>
      if v.validateOk id then .ok () else .error .pskIdValidationError
    | .resumption _ => .ok ()
  if valid = false then .error .invalidTypeOrUsageInPreSharedKeyProposal
  else if ¬(nonceLength = kdfExtractSize) then
    .error (.invalidPskNonceLength kdfExtractSize nonceLength)
  else if p.proposal.psk ∈ seen then .error .duplicatePskIds
  else externalIdIsValid

/-- Fold of filter_out_invalid_psks: the seen set records every proposal's
full pre-shared-key id before the strategy decides the proposal's fate. -/
def goPsks (s : FilterStrategy) (kdfExtractSize : Nat)
    (v : ExternalPskIdValidatorM) (seen : List PreSharedKeyID) :
    List (ProposalInfo PreSharedKeyProposal) →
    Except ProposalFilterError (List (ProposalInfo PreSharedKeyProposal))
  | [] => .ok []
  | p :: ps => do
    let keep ← applyStrategy s p.byRef (pskCheckRes kdfExtractSize v seen p)
    let rest ← goPsks s kdfExtractSize v (p.proposal.psk :: seen) ps
    pure (if keep then p :: rest else rest)

/-- filter_out_invalid_psks. -/
def filterOutInvalidPsks (s : FilterStrategy) (csp : CipherSuiteProviderM)
    (b : ProposalBundle) (v : ExternalPskIdValidatorM) :
    Except ProposalFilterError ProposalBundle := do
  let psks ← goPsks s csp.kdfExtractSize v [] b.psks
  pure { b with psks := psks }

/-! ## Group extension proposal validity (rule 11) -/

/-- The per-proposal rule of filter_out_invalid_group_extensions: decode the
external_senders extension of the proposed list and verify every listed
identity with the identity provider at commit time. -/
def gceCheckRes (idp : IdentityProviderM) (commitTime : Option Nat)
    (p : ProposalInfo ExtensionList) : Except ProposalFilterError Unit :=
  match getExternalSenders p.proposal with
  | .ok none => .ok ()
  | .ok (some ext) =>
    if ext.allowedSenders.all (fun sid => idp.validateExternalSenderOk sid commitTime)
    then .ok ()
    else .error .identityProviderError
  | .error e => .error e

/-- filter_out_invalid_group_extensions. -/
def filterOutInvalidGroupExtensions (s : FilterStrategy) (b : ProposalBundle)
    (idp : IdentityProviderM) (commitTime : Option Nat) :
    Except ProposalFilterError ProposalBundle := do
  let gces ← retainE (fun p =>
    applyStrategy s p.byRef (gceCheckRes idp commitTime p)) b.groupContextExts
  pure { b with groupContextExts := gces }

/-! ## Tree editing (modelled from the spec, section 4.E)

batch_edit and add_leaves live in the tree_kem module, which is not under
src/.  They are modelled from the spec: updates, then removes, then adds;
each failed operation reports its per-type proposal index through the
accumulator (struct TreeBatchEditAccumulator, which is under src/ and is
embedded faithfully: the strategy consults the by-reference flag of the
proposal at that index, dropping the proposal or aborting the batch). -/

/-- One tree update: the leaf must resolve and the abstract tree-side
validation must accept the new leaf; the slot is then replaced (parent
blanking is not observable in the leaf-only tree model). -/
def updateLeafOp (ctx : ApplierCtx) (t : TreeKemPublic) (li : Nat)
    (leaf : LeafNode) : Except RatchetTreeError TreeKemPublic :=
  match t.getLeafNode li with
  | .error e => .error e
  | .ok _ =>
    if ctx.treeUpdateOk li leaf then .ok (t.setLeaf li (some leaf))
    else .error (.invalidLeaf li)

/-- One tree removal: fails when the slot is already blank, otherwise blanks
it and reports the prior leaf. -/
def removeLeafOp (t : TreeKemPublic) (li : Nat) :
    Except RatchetTreeError (TreeKemPublic × (Nat × LeafNode)) :=
  match t.getLeafNode li with
  | .error e => .error e
  | .ok l => .ok (t.setLeaf li none, (li, l))

/-- One tree addition: identity validation and uniqueness, then the leftmost
blank slot, extending the tree when full. -/
def addOneLeaf (ctx : ApplierCtx) (t : TreeKemPublic) (leaf : LeafNode) :
    Except RatchetTreeError (TreeKemPublic × Nat) :=
  if ctx.addLeafOk leaf = false then .error .credentialValidationError
  else if t.hasDuplicateOf leaf then .error .duplicateLeafData
  else
    match t.leftmostBlank with
    | some i => .ok (t.setLeaf i (some leaf), i)
    | none => .ok (⟨t.leaves ++ [some leaf]⟩, t.leaves.length)

/-- add_leaves: insert each leaf in input order, returning the assigned
indices in input order. -/
def TreeKemPublic.addLeaves (ctx : ApplierCtx) (t : TreeKemPublic) :
    List LeafNode → Except RatchetTreeError (TreeKemPublic × List Nat)
  | [] => .ok (t, [])
  | leaf :: rest => do
    let (t2, i) ← addOneLeaf ctx t leaf
    let (t3, idxs) ← TreeKemPublic.addLeaves ctx t2 rest
    pure (t3, i :: idxs)

/-- Accumulated output of batch_edit as destructured by apply_tree_changes. -/
structure BatchAccState where
  tree : TreeKemPublic
  newLeafIndexes : List Nat
  removedLeaves : List (Nat × LeafNode)
  invalidAdditions : List Nat
  invalidRemovals : List Nat
  invalidUpdates : List Nat
deriving DecidableEq, Repr

/-- Update phase of batch_edit with the accumulator's strategy handling:
a failing update records its index and is skipped when ignored, otherwise
the batch aborts. -/
def goEditUpdates (ctx : ApplierCtx) (s : FilterStrategy) (byRefs : List Bool)
    (idx : Nat) (st : BatchAccState) :
    List (Nat × LeafNode) → Except RatchetTreeError BatchAccState
  | [] => .ok st
  | (li, leaf) :: rest =>
    match updateLeafOp ctx st.tree li leaf with
    | .ok t2 => goEditUpdates ctx s byRefs (idx + 1) { st with tree := t2 } rest
    | .error e =>
      let st2 := { st with invalidUpdates := st.invalidUpdates ++ [idx] }
      if s.ignoreRef (byRefs.getD idx false) then
        goEditUpdates ctx s byRefs (idx + 1) st2 rest
      else .error e

/-- Removal phase of batch_edit. -/
def goEditRemovals (ctx : ApplierCtx) (s : FilterStrategy) (byRefs : List Bool)
    (idx : Nat) (st : BatchAccState) :
    List Nat → Except RatchetTreeError BatchAccState
  | [] => .ok st
  | li :: rest =>
    match removeLeafOp st.tree li with
    | .ok (t2, prior) =>
      goEditRemovals ctx s byRefs (idx + 1)
        { st with tree := t2, removedLeaves := st.removedLeaves ++ [prior] } rest
    | .error e =>
      let st2 := { st with invalidRemovals := st.invalidRemovals ++ [idx] }
      if s.ignoreRef (byRefs.getD idx false) then
        goEditRemovals ctx s byRefs (idx + 1) st2 rest
      else .error e

/-- Addition phase of batch_edit. -/
def goEditAdds (ctx : ApplierCtx) (s : FilterStrategy) (byRefs : List Bool)
    (idx : Nat) (st : BatchAccState) :
    List LeafNode → Except RatchetTreeError BatchAccState
  | [] => .ok st
  | leaf :: rest =>
    match addOneLeaf ctx st.tree leaf with
    | .ok (t2, i) =>
      goEditAdds ctx s byRefs (idx + 1)
        { st with tree := t2, newLeafIndexes := st.newLeafIndexes ++ [i] } rest
    | .error e =>
      let st2 := { st with invalidAdditions := st.invalidAdditions ++ [idx] }
      if s.ignoreRef (byRefs.getD idx false) then
        goEditAdds ctx s byRefs (idx + 1) st2 rest
      else .error e

/-- batch_edit: updates, then removes, then adds, on a working tree. -/
def batchEdit (ctx : ApplierCtx) (s : FilterStrategy)
    (updByRefs remByRefs addByRefs : List Bool) (t : TreeKemPublic)
    (updates : List (Nat × LeafNode)) (removals : List Nat)
    (additions : List LeafNode) : Except RatchetTreeError BatchAccState := do
  let st0 : BatchAccState := ⟨t, [], [], [], [], []⟩
  let st1 ← goEditUpdates ctx s updByRefs 0 st0 updates
  let st2 ← goEditRemovals ctx s remByRefs 0 st1 removals
  goEditAdds ctx s addByRefs 0 st2 additions

/-- Remove the elements at the given per-type indices (the descending-order
ProposalBundle::remove loop over a BTreeSet of invalid indices). -/
def removeAtIndices {α : Type} (l : List α) (idxs : List Nat) : List α :=
  (l.enum.filter (fun p => decide (p.1 ∉ idxs))).map Prod.snd

/-! ## Leaf validation during tree changes -/

/-- Whether a leaf advertises every required capability (the check of
LeafNodeValidator::validate_required_capabilities, modelled from the spec:
every required extension, proposal and credential type must be listed in
the leaf's capabilities). -/
def reqCapsB (rc : RequiredCapabilitiesExt) (leaf : LeafNode) : Bool :=
  rc.extensions.all (fun t => decide (t ∈ leaf.capabilities.extensions)) &&
  rc.proposals.all (fun t => decide (t ∈ leaf.capabilities.proposals)) &&
  rc.credentials.all (fun t => decide (t ∈ leaf.capabilities.credentials))

/-- validate_required_capabilities with required capabilities in force. -/
def validateRequiredCapabilities (rc : RequiredCapabilitiesExt)
    (leaf : LeafNode) : Except ProposalFilterError Unit :=
  if reqCapsB rc leaf then .ok () else .error .leafNodeValidationError

/-- leaf_supports_extensions, from the source: every non-default extension
type of the group extension list must appear in the leaf's capability
extension list. -/
def leafSupportsExtensions (leaf : LeafNode) (extensions : ExtensionList) :
    Except ProposalFilterError Unit :=
  match ((extensions.map (·.extType)).filter (fun t => !extTypeIsDefault t)).find?
      (fun t => decide (t ∉ leaf.capabilities.extensions)) with
  | some t => .error (.unsupportedGroupExtension t)
  | none => .ok ()

/-- LeafNodeValidator::check_if_valid in Update context, modelled from the
spec: abstract signature/source/credential validation plus the concrete
required-capabilities check when in force. -/
def checkLeafValidUpdate (ctx : ApplierCtx)
    (rc : Option RequiredCapabilitiesExt) (leaf : LeafNode) (senderIdx : Nat)
    (commitTime : Option Nat) : Except ProposalFilterError Unit :=
  if ctx.leafUpdateOk leaf senderIdx commitTime &&
      (match rc with | none => true | some r => reqCapsB r leaf) then .ok ()
  else .error .leafNodeValidationError

/-- KeyPackageValidator::check_if_valid, modelled from the spec likewise. -/
def checkKeyPackageValid (ctx : ApplierCtx)
    (rc : Option RequiredCapabilitiesExt) (kp : KeyPackage)
    (commitTime : Option Nat) : Except ProposalFilterError Unit :=
  if ctx.keyPackageOk kp commitTime &&
      (match rc with | none => true | some r => reqCapsB r kp.leafNode) then .ok ()
  else .error .keyPackageValidationError

/-- leaf_index_of_update_sender: the Member leaf of an update's sender. -/
def leafIndexOfUpdateSender (p : ProposalInfo UpdateProposal) :
    Except ProposalFilterError Nat :=
  match p.sender with
  | .member i => .ok i
  | _ => .error (.invalidProposalTypeForSender ptUpdate p.sender p.byRef)

/-- validate_new_update_nodes over the update list: the sender resolution
error propagates unconditionally (the ? inside the stream), the combined
validation result goes through the strategy. -/
def goValidateUpdates (ctx : ApplierCtx) (s : FilterStrategy)
    (gexts : ExtensionList) (rc : Option RequiredCapabilitiesExt)
    (commitTime : Option Nat) :
    List (ProposalInfo UpdateProposal) →
    Except ProposalFilterError (List (ProposalInfo UpdateProposal))
  | [] => .ok []
  | p :: ps => do
    let senderIdx ← leafIndexOfUpdateSender p
    let valid := checkLeafValidUpdate ctx rc p.proposal.leafNode senderIdx commitTime
    let res := exceptAnd valid (leafSupportsExtensions p.proposal.leafNode gexts)
    let keep ← applyStrategy s p.byRef res
    let rest ← goValidateUpdates ctx s gexts rc commitTime ps
    pure (if keep then p :: rest else rest)

/-- validate_new_key_packages over the addition list. -/
def goValidateAdds (ctx : ApplierCtx) (s : FilterStrategy)
    (gexts : ExtensionList) (rc : Option RequiredCapabilitiesExt)
    (commitTime : Option Nat) :
    List (ProposalInfo AddProposal) →
    Except ProposalFilterError (List (ProposalInfo AddProposal))
  | [] => .ok []
  | p :: ps => do
    let valid := checkKeyPackageValid ctx rc p.proposal.keyPackage commitTime
    let res := exceptAnd valid
      (leafSupportsExtensions p.proposal.keyPackage.leafNode gexts)
    let keep ← applyStrategy s p.byRef res
    let rest ← goValidateAdds ctx s gexts rc commitTime ps
    pure (if keep then p :: rest else rest)

/-- validate_new_nodes: updates then key packages. -/
def validateNewNodes (ctx : ApplierCtx) (s : FilterStrategy)
    (st : ProposalState) (gexts : ExtensionList)
    (rc : Option RequiredCapabilitiesExt) (commitTime : Option Nat) :
    Except ProposalFilterError ProposalState := do
  let ups ← goValidateUpdates ctx s gexts rc commitTime st.proposals.updates
  let adds ← goValidateAdds ctx s gexts rc commitTime st.proposals.additions
  pure { st with proposals := { st.proposals with updates := ups, additions := adds } }

/-- The update-extraction retain of apply_tree_changes: each Member update
contributes its (leaf index, new leaf) pair and is kept; an update whose
sender does not resolve goes through the strategy with the resolution
error. -/
def goExtractUpdates (s : FilterStrategy) :
    List (ProposalInfo UpdateProposal) →
    Except ProposalFilterError
      (List (ProposalInfo UpdateProposal) × List (Nat × LeafNode))
  | [] => .ok ([], [])
  | p :: ps =>
    match p.sender with
    | .member i => do
      let (ks, us) ← goExtractUpdates s ps
      pure (p :: ks, (i, p.proposal.leafNode) :: us)
    | _ =>
      if s.ignoreRef p.byRef then goExtractUpdates s ps
      else .error (.invalidProposalTypeForSender ptUpdate p.sender p.byRef)

/-- apply_tree_changes: validate new nodes, extract the update / removal /
addition lists, run batch_edit on the working tree, then drop the proposals
whose tree operation failed (and was ignored). -/
def applyTreeChanges (ctx : ApplierCtx) (s : FilterStrategy)
    (st : ProposalState) (gexts : ExtensionList)
    (rc : Option RequiredCapabilitiesExt) (commitTime : Option Nat) :
    Except ProposalFilterError ProposalState := do
  let st ← validateNewNodes ctx s st gexts rc commitTime
  let (ups, updates) ← goExtractUpdates s st.proposals.updates
  let proposals := { st.proposals with updates := ups }
  let removals := proposals.removals.map (·.proposal.toRemove)
  let additions := proposals.additions.map (·.proposal.keyPackage.leafNode)
  let acc ←
    match batchEdit ctx s (proposals.updates.map (·.byRef))
        (proposals.removals.map (·.byRef)) (proposals.additions.map (·.byRef))
        st.tree updates removals additions with
    | .ok a => .ok a
    | .error e => .error (.ratchetTree e)
  let proposals2 := { proposals with
    additions := removeAtIndices proposals.additions acc.invalidAdditions,
    removals := removeAtIndices proposals.removals acc.invalidRemovals,
    updates := removeAtIndices proposals.updates acc.invalidUpdates }
  pure { st with tree := acc.tree, proposals := proposals2,
                 addedIndexes := acc.newLeafIndexes,
                 removedLeaves := acc.removedLeaves }

/-! ## The orchestrator -/

/-- The required-capabilities check of apply_proposals_with_new_capabilities:
every non-empty leaf of the new tree must advertise the new required
capabilities (try_for_each over validate_required_capabilities). -/
def newCapsCheck (rc : Option RequiredCapabilitiesExt) (t : TreeKemPublic) :
    Except ProposalFilterError Unit :=
  match rc with
  | none => .ok ()
  | some r =>
    match t.nonEmptyLeaves.find? (fun p => !reqCapsB r p.2) with
    | some _ => .error .leafNodeValidationError
    | none => .ok ()

/-- The extension-support check of apply_proposals_with_new_capabilities:
the first non-default extension type of the proposal that some non-empty
leaf does not advertise fails. -/
def newExtsCheck (proposal : ExtensionList) (t : TreeKemPublic) :
    Except ProposalFilterError Unit :=
  match ((proposal.map (·.extType)).filter (fun ty => !extTypeIsDefault ty)).find?
      (fun ty => !t.nonEmptyLeaves.all (fun p => decide (ty ∈ p.2.capabilities.extensions))) with
  | some ty => .error (.unsupportedGroupExtension ty)
  | none => .ok ()

/-- apply_proposals_with_new_capabilities: attempt the tree changes with an
empty extension set and no required capabilities, check the result against
the new capabilities and extensions, and on failure either surface the
error or (when the strategy ignores the proposal) clear it and fall back,
short-circuiting when the original extensions and capabilities are
trivial. -/
def applyProposalsWithNewCapabilities (ctx : ApplierCtx) (s : FilterStrategy)
    (st : ProposalState) (gceProposal : ProposalInfo ExtensionList)
    (newRequiredCapabilities : Option RequiredCapabilitiesExt)
    (commitTime : Option Nat) : Except ProposalFilterError ProposalState := do
  let newState ← applyTreeChanges ctx s st [] none commitTime
  let newCapabilitiesSupported := newCapsCheck newRequiredCapabilities newState.tree
  let newExtensionsSupported := newExtsCheck gceProposal.proposal newState.tree
  match exceptAnd newCapabilitiesSupported newExtensionsSupported with
  | .ok _ => .ok newState
  | .error e =>
    let ignored := s.ignoreRef gceProposal.byRef
    let st2 := if ignored then st.clearGce else st
    let newState2 := if ignored then newState.clearGce else newState
    match ignored, ctx.originalRequiredCapabilities,
        ctx.originalGroupExtensions.isEmpty with
    | false, _, _ => .error e
    | true, none, true => .ok newState2
    | true, _, _ =>
      applyTreeChanges ctx s st2 ctx.originalGroupExtensions
        ctx.originalRequiredCapabilities commitTime

/-- apply_proposal_changes: decode the group-context-extensions proposal's
required capabilities; on decode failure drop it (when ignored) or abort;
dispatch to the capability-switch path or the plain path with the original
extensions and capabilities. -/
def applyProposalChanges (ctx : ApplierCtx) (s : FilterStrategy)
    (st : ProposalState) (commitTime : Option Nat) :
    Except ProposalFilterError ProposalState := do
  let epc ←
    match st.proposals.groupContextExtensionsProposal with
    | none =>
      (.ok none :
        Except ProposalFilterError
          (Option (ProposalInfo ExtensionList × Option RequiredCapabilitiesExt)))
    | some p =>
      match getRequiredCapabilities p.proposal with
      | .ok capabilities => .ok (some (p, capabilities))
      | .error e => if s.ignoreRef p.byRef then .ok none else .error e
  match epc with
  | some (gce, newRc) =>
    applyProposalsWithNewCapabilities ctx s st gce newRc commitTime
  | none =>
    applyTreeChanges ctx s st.clearGce ctx.originalGroupExtensions
      ctx.originalRequiredCapabilities commitTime

/-- apply_proposals_from_member: the full filter pipeline, then the tree
changes phase on a clone of the original tree. -/
def applyProposalsFromMember (ctx : ApplierCtx) (s : FilterStrategy)
    (commitSender : Nat) (proposals : ProposalBundle)
    (commitTime : Option Nat) : Except ProposalFilterError ProposalState := do
  let proposals ← filterOutInvalidProposers s ctx.originalTree
    ctx.originalGroupExtensions proposals
  let proposals ← filterOutUpdateForCommitter s commitSender proposals
  let proposals ← filterOutRemovalOfCommitter s commitSender proposals
  let proposals ← filterOutExtraRemovalOrUpdateForSameLeaf s proposals
  let proposals ← filterOutInvalidPsks s ctx.cipherSuite proposals
    ctx.externalPskIdValidator
  let proposals ← filterOutInvalidGroupExtensions s proposals
    ctx.identityProvider commitTime
  let proposals ← filterOutExtraGroupContextExtensions s proposals
  let proposals ← filterOutInvalidReinit s proposals ctx.protocolVersion
  let proposals ← filterOutReinitIfOtherProposals s proposals
  let proposals ← filterOutExternalInit s commitSender proposals
  applyProposalChanges ctx s (ProposalState.new ctx.originalTree proposals) commitTime

/-- ensure_exactly_one_external_init. -/
def ensureExactlyOneExternalInit (b : ProposalBundle) :
    Except ProposalFilterError Unit :=
  if b.extInits.length = 1 then .ok ()
  else .error .externalCommitMustHaveExactlyOneExternalInit

/-- ensure_removal_is_for_self: the removed leaf's signing identity must be
a valid predecessor of the joining leaf. -/
def ensureRemovalIsForSelf (ctx : ApplierCtx) (removal : RemoveProposal)
    (externalLeaf : LeafNode) : Except ProposalFilterError Unit := do
  let existing ←
    match ctx.originalTree.getLeafNode removal.toRemove with
    | .ok l => .ok l
    | .error e => .error (.ratchetTree e)
  match ctx.identityProvider.validSuccessor existing.signingIdentity
      externalLeaf.signingIdentity with
  | .error _ => .error (.ratchetTree .credentialValidationError)
  | .ok true => .ok ()
  | .ok false => .error .externalCommitRemovesOtherIdentity

/-- ensure_at_most_one_removal_for_self. -/
def ensureAtMostOneRemovalForSelf (ctx : ApplierCtx) (b : ProposalBundle)
    (externalLeaf : LeafNode) : Except ProposalFilterError Unit :=
  match b.removals with
  | [] => .ok ()
  | [r] => ensureRemovalIsForSelf ctx r.proposal externalLeaf
  | _ => .error .externalCommitWithMoreThanOneRemove

/-- ensure_proposals_in_external_commit_are_allowed: only ExternalInit,
Remove and PSK proposal types may appear. -/
def ensureProposalsInExternalCommitAreAllowed (b : ProposalBundle) :
    Except ProposalFilterError Unit :=
  match b.proposalTypes.find? (fun t =>
      !(decide (t = ptExternalInit) || decide (t = ptRemove) || decide (t = ptPsk))) with
  | some t => .error (.invalidProposalTypeInExternalCommit t)
  | none => .ok ()

/-- ensure_no_proposal_by_ref. -/
def ensureNoProposalByRef (b : ProposalBundle) :
    Except ProposalFilterError Unit :=
  if b.anyByRef then .error .onlyMembersCanCommitProposalsByRef else .ok ()

/-- insert_external_leaf: add_leaves with the joining leaf and record the
assigned index. -/
def insertExternalLeaf (ctx : ApplierCtx) (st : ProposalState)
    (leaf : LeafNode) : Except ProposalFilterError ProposalState :=
  match TreeKemPublic.addLeaves ctx st.tree [leaf] with
  | .error e => .error (.ratchetTree e)
  | .ok (t, idxs) =>
    .ok { st with tree := t, externalLeafIndex := idxs.head? }

/-- apply_proposals_from_new_member: the external-commit checks, the
proposer and PSK filters under FailInvalidProposal, the tree changes, and
the insertion of the joining leaf. -/
def applyProposalsFromNewMember (ctx : ApplierCtx) (proposals : ProposalBundle)
    (commitTime : Option Nat) : Except ProposalFilterError ProposalState := do
  let externalLeaf ←
    match ctx.externalLeaf with
    | some l => .ok l
    | none => .error ProposalFilterError.externalCommitMustHaveNewLeaf
  let _ ← ensureExactlyOneExternalInit proposals
  let _ ← ensureAtMostOneRemovalForSelf ctx proposals externalLeaf
  let _ ← ensureProposalsInExternalCommitAreAllowed proposals
  let _ ← ensureNoProposalByRef proposals
  let proposals ← filterOutInvalidProposers .failInvalidProposal
    ctx.originalTree ctx.originalGroupExtensions proposals
  let proposals ← filterOutInvalidPsks .failInvalidProposal ctx.cipherSuite
    proposals ctx.externalPskIdValidator
  let st ← applyProposalChanges ctx .failInvalidProposal
    (ProposalState.new ctx.originalTree proposals) commitTime
  insertExternalLeaf ctx st externalLeaf

/-- filter_out_unsupported_custom_proposals (rule 12): a custom proposal
whose type is not supported by every leaf of the resulting tree fails. -/
def filterOutUnsupportedCustomProposals (s : FilterStrategy)
    (st : ProposalState) : Except ProposalFilterError ProposalState := do
  let supportedTypes := (st.proposals.customs.map (·.proposal.proposalType)).filter
    (fun t => st.tree.canSupportProposal t)
  let customs ← retainE (fun p =>
    applyStrategy s p.byRef
      (if p.proposal.proposalType ∈ supportedTypes then .ok ()
       else .error (.unsupportedCustomProposal p.proposal.proposalType)))
    st.proposals.customs
  pure { st with proposals := { st.proposals with customs := customs } }

/-- apply_proposals: dispatch on the commit sender, then the custom
proposal filter. -/
def applyProposals (ctx : ApplierCtx) (s : FilterStrategy)
    (commitSender : Sender) (proposals : ProposalBundle)
    (commitTime : Option Nat) : Except ProposalFilterError ProposalState := do
  let st ←
    match commitSender with
    | .member i => applyProposalsFromMember ctx s i proposals commitTime
    | .newMemberCommit => applyProposalsFromNewMember ctx proposals commitTime
    | .external _ => .error ProposalFilterError.externalSenderCannotCommit
    | .newMemberProposal => .error ProposalFilterError.externalSenderCannotCommit
  filterOutUnsupportedCustomProposals s st

/-- The applier call as seen from the caller's tree.  The Rust method
borrows the applier (and hence the caller's tree) immutably and starts the
working copy with ProposalState::new(self.original_tree.clone(), ...); in
this embedding the caller's tree is threaded as explicit state that the
body reads once (the borrow of self.original_tree) and could update, and
the pair's second component is the caller's tree when the call returns. -/
def applyProposalsWithCallerTree (ctx : ApplierCtx) (s : FilterStrategy)
    (commitSender : Sender) (proposals : ProposalBundle)
    (commitTime : Option Nat) (callerTree : TreeKemPublic) :
    Except ProposalFilterError ProposalState × TreeKemPublic :=
  let appl := { ctx with originalTree := callerTree }
  (applyProposals appl s commitSender proposals commitTime, appl.originalTree)

/-! ## The basic identity provider (src/aws-mls/src/identity/basic.rs) -/

/-- BasicIdentityProviderError: carries the offending credential type. -/
structure BasicIdentityProviderError where
  credentialType : Nat
deriving DecidableEq, Repr

/-- resolve_basic_identity: the basic credential of the signing identity,
or an error naming the actual credential type. -/
def resolveBasicIdentity (s : SigningIdentity) :
    Except BasicIdentityProviderError (List Nat) :=
  match s.credential.asBasic with
  | some c => .ok c
  | none => .error ⟨s.credential.credentialType⟩

/-- BasicIdentityProvider::validate_member: succeeds exactly when the
credential resolves as basic; the timestamp and extensions are ignored. -/
def basicValidateMember (signingIdentity : SigningIdentity)
    (_timestamp : Option Nat) (_extensions : Option ExtensionList) :
    Except BasicIdentityProviderError Unit :=
  (resolveBasicIdentity signingIdentity).map (fun _ => ())

/-! ## Claim-side definitions and concrete inputs

Definitions in this section either restate a claim's wording (clearly named
Spec / claim-side, for comparison against the source-side definitions
above) or provide concrete inputs for witnesses and counterexamples. -/

/-- The authorization table exactly as claim C2 words it: Member by-value
for Add, Remove, PSK, ReInit and GroupContextExtensions; Member
by-reference for those plus Update; External only by-reference and only
for Add, Remove and ReInit; NewMemberCommit only by-value and only for
Remove, PSK and ExternalInit; NewMemberProposal only by-reference and only
for Add.  This definition follows the claim's words, to be compared with
proposerCanPropose, which follows the source. -/
def authorizationTableSpec (sender : Sender) (proposalType : Nat)
    (byRef : Bool) : Bool :=
  match sender with
  | .member _ =>
    if byRef then
      decide (proposalType = ptAdd) || decide (proposalType = ptRemove) ||
      decide (proposalType = ptPsk) || decide (proposalType = ptReInit) ||
      decide (proposalType = ptGroupContextExtensions) ||
      decide (proposalType = ptUpdate)
    else
      decide (proposalType = ptAdd) || decide (proposalType = ptRemove) ||
      decide (proposalType = ptPsk) || decide (proposalType = ptReInit) ||
      decide (proposalType = ptGroupContextExtensions)
  | .external _ =>
    byRef && (decide (proposalType = ptAdd) || decide (proposalType = ptRemove) ||
      decide (proposalType = ptReInit))
  | .newMemberCommit =>
    !byRef && (decide (proposalType = ptRemove) || decide (proposalType = ptPsk) ||
      decide (proposalType = ptExternalInit))
  | .newMemberProposal => byRef && decide (proposalType = ptAdd)

/-- A one-member concrete leaf for the C8 scenario. -/
def c8Leaf : LeafNode :=
  ⟨[10], ⟨.basic [0], [11]⟩, ⟨[1], [1], [], [], [1]⟩, []⟩

/-- A concrete applier context for the C8 scenario: member 0 present, every
abstract validation accepting. -/
def c8Ctx : ApplierCtx :=
  { originalTree := ⟨[some c8Leaf]⟩
    protocolVersion := 1
    cipherSuite := ⟨2⟩
    groupId := []
    originalGroupExtensions := []
    originalRequiredCapabilities := none
    externalLeaf := none
    identityProvider := ⟨fun _ _ => true, fun _ _ => .ok true⟩
    externalPskIdValidator := ⟨fun _ => true⟩
    leafUpdateOk := fun _ _ _ => true
    keyPackageOk := fun _ _ => true
    treeUpdateOk := fun _ _ => true
    addLeafOk := fun _ => true }

/-- The full pre-shared-key ids of the PSK proposals strictly before
position k, as accumulated by the seen set of filter_out_invalid_psks. -/
def priorPsks (l : List (ProposalInfo PreSharedKeyProposal)) (k : Nat) :
    List PreSharedKeyID :=
  ((l.take k).map (fun p => p.proposal.psk)).reverse

/-- Claim-side description of the PSK proposals surviving the filter under
the ignoring strategy: each proposal is kept exactly when its rule passes
against the ids of all earlier proposals, which enter the seen set whether
or not their own rule passed. -/
def pskSurvivorsAux (kdfExtractSize : Nat) (v : ExternalPskIdValidatorM)
    (seen : List PreSharedKeyID) :
    List (ProposalInfo PreSharedKeyProposal) →
    List (ProposalInfo PreSharedKeyProposal)
  | [] => []
  | p :: ps =>
    if (pskCheckRes kdfExtractSize v seen p).isOk then
      p :: pskSurvivorsAux kdfExtractSize v (p.proposal.psk :: seen) ps
    else
      pskSurvivorsAux kdfExtractSize v (p.proposal.psk :: seen) ps

/-- Claim-side offense predicate for removals (claim C5): some Remove
targeting leaf i whose leaf was already seen — at an empty initial set,
exactly a second Remove for the same leaf i. -/
def hasDupRemoveFor (seen : List Nat) (i : Nat) :
    List (ProposalInfo RemoveProposal) → Bool
  | [] => false
  | p :: ps =>
    (decide (p.proposal.toRemove = i) && decide (i ∈ seen)) ||
    hasDupRemoveFor (p.proposal.toRemove :: seen) i ps

/-- Claim-side offense predicate for updates (claim C5): some Update from
Member(i) that either is not the last Update from that sender in the list
or whose leaf is among the removed leaves. -/
def badUpdateFor (removed : List Nat) (i : Nat) :
    List (ProposalInfo UpdateProposal) → Bool
  | [] => false
  | p :: ps =>
    (match p.sender with
     | Sender.member j =>
       decide (j = i) &&
       (ps.any (fun q => decide (q.sender = Sender.member i)) || decide (i ∈ removed))
     | _ => false) ||
    badUpdateFor removed i ps

/-- Claim-side per-leaf offense predicate of claim C5: the bundle contains
a second Remove for leaf i, or an Update from Member(i) that is not the
last Update from that sender, or an Update from Member(i) together with a
Remove for leaf i. -/
def moreThanOneForLeafSpec (b : ProposalBundle) (i : Nat) : Bool :=
  hasDupRemoveFor [] i b.removals ||
  badUpdateFor (b.removals.map (fun r => r.proposal.toRemove)) i b.updates

/-- Claim-side survivors of the removal phase: the first Remove per leaf is
kept, every later Remove for an already-seen leaf is dropped. -/
def keptRemovalsSpec (seen : List Nat) :
    List (ProposalInfo RemoveProposal) → List (ProposalInfo RemoveProposal)
  | [] => []
  | p :: ps =>
    if p.proposal.toRemove ∈ seen then keptRemovalsSpec seen ps
    else p :: keptRemovalsSpec (p.proposal.toRemove :: seen) ps

/-- Claim-side survivors of the update phase: an Update from Member(i) is
kept exactly when it is the last Update from that sender and leaf i is not
removed; updates from other senders are kept. -/
def keptUpdatesSpec (removed : List Nat) :
    List (ProposalInfo UpdateProposal) → List (ProposalInfo UpdateProposal)
  | [] => []
  | p :: ps =>
    match p.sender with
    | Sender.member i =>
      if ps.any (fun q => decide (q.sender = Sender.member i)) || decide (i ∈ removed)
      then keptUpdatesSpec removed ps
      else p :: keptUpdatesSpec removed ps
    | _ => p :: keptUpdatesSpec removed ps

/-- A one-member concrete leaf for the C7 scenario. -/
def c7Leaf : LeafNode :=
  ⟨[20], ⟨.basic [1], [21]⟩, ⟨[1], [1], [], [], [1]⟩, []⟩

/-- The joining leaf of the C7 external-commit scenario. -/
def c7ExtLeaf : LeafNode :=
  ⟨[30], ⟨.basic [2], [31]⟩, ⟨[1], [1], [], [], [1]⟩, []⟩

/-- A concrete applier context for the C7 scenario: a one-member tree and a
supplied external leaf, every abstract validation accepting. -/
def c7Ctx : ApplierCtx :=
  { originalTree := ⟨[some c7Leaf]⟩
    protocolVersion := 1
    cipherSuite := ⟨2⟩
    groupId := []
    originalGroupExtensions := []
    originalRequiredCapabilities := none
    externalLeaf := some c7ExtLeaf
    identityProvider := ⟨fun _ _ => true, fun _ _ => .ok true⟩
    externalPskIdValidator := ⟨fun _ => true⟩
    leafUpdateOk := fun _ _ _ => true
    keyPackageOk := fun _ _ => true
    treeUpdateOk := fun _ _ => true
    addLeafOk := fun _ => true }

/-- Claim-side capability-consistency property of claim C3: every non-blank
leaf of the tree validates against the proposal's required-capabilities
extension (when present) and advertises every non-default extension type
the proposal lists. -/
def gceConsistent (p : ProposalInfo ExtensionList) (t : TreeKemPublic) : Prop :=
  (∀ rc, getRequiredCapabilities p.proposal = .ok (some rc) →
    ∀ il ∈ t.nonEmptyLeaves, reqCapsB rc il.2 = true) ∧
  (∀ e ∈ p.proposal, extTypeIsDefault e.extType = false →
    ∀ il ∈ t.nonEmptyLeaves, e.extType ∈ il.2.capabilities.extensions)

/-! ## Reduction helpers for the Except monad -/

@[simp]
theorem ok_bind {ε α β : Type} (a : α) (f : α → Except ε β) :
    (Except.ok a : Except ε α) >>= f = f a := rfl

@[simp]
theorem error_bind {ε α β : Type} (e : ε) (f : α → Except ε β) :
    (Except.error e : Except ε α) >>= f = Except.error e := rfl

@[simp]
theorem pure_eq_ok {ε α : Type} (a : α) :
    (pure a : Except ε α) = Except.ok a := rfl

theorem bind_ok_inv {ε α β : Type} {x : Except ε α} {f : α → Except ε β} {b : β}
    (h : x >>= f = .ok b) : ∃ a, x = .ok a ∧ f a = .ok b := by
  cases x with
  | ok a => exact ⟨a, rfl, h⟩
  | error e => simp at h

/-! ## Claim C2: proposer authorization -/

/-- proposer_can_propose agrees with the claim's table everywhere. -/
theorem proposerCanPropose_eq_table (sender : Sender) (t : Nat) (b : Bool) :
    proposerCanPropose sender t b = authorizationTableSpec sender t b := by
  cases sender <;> cases b <;>
    simp only [proposerCanPropose, authorizationTableSpec, Bool.true_and,
      Bool.false_and, Bool.not_true, Bool.not_false] <;>
    first
      | rfl
      | ac_rfl

/-- C2: proposer_can_propose returns true exactly for the combinations
marked T in the claim's authorization table, and for every disallowed
combination the per-proposal rule applied by validate_proposer fails with
InvalidProposalTypeForSender carrying the type, sender and by-ref flag. -/
theorem c2_proposer_authorization (sender : Sender) (t : Nat) (b : Bool)
    (tree : TreeKemPublic) (es : Option ExternalSendersExt) :
    proposerCanPropose sender t b = authorizationTableSpec sender t b ∧
    (authorizationTableSpec sender t b = false →
      validateProposerRes tree es t sender b =
        .error (.invalidProposalTypeForSender t sender b)) := by
  refine ⟨proposerCanPropose_eq_table sender t b, fun h => ?_⟩
  have hc : proposerCanPropose sender t b = false :=
    (proposerCanPropose_eq_table sender t b).trans h
  simp [validateProposerRes, hc]

/-- C2 witness: a NewMemberCommit sender may not send a by-value Add, and
the rule fails it with the corresponding error. -/
theorem c2_proposer_authorization_witness :
    validateProposerRes ⟨[]⟩ none ptAdd Sender.newMemberCommit false =
      .error (.invalidProposalTypeForSender ptAdd Sender.newMemberCommit false) :=
  (c2_proposer_authorization Sender.newMemberCommit ptAdd false ⟨[]⟩ none).2
    (by decide)

/-! ## Claim C9: the basic identity provider -/

/-- C9 counterexample: validate_member accepts any basic credential with no
key or signature check at all.  The two identities below share one basic
credential but carry different signature public keys; a fixed credential
can match at most one signature key, so the claim's condition (success
exactly when a self-signed basic credential matches the identity's
signature public key) is false at one of these inputs, both of which the
provider accepts.  The basic credential of the source carries only an
identifier, so no matching is even possible. -/
theorem c9_basic_validate_member_counterexample :
    basicValidateMember ⟨.basic [1], [2]⟩ none none = .ok () ∧
    basicValidateMember ⟨.basic [1], [3]⟩ none none = .ok () :=
  ⟨rfl, rfl⟩

/-- C9 (amended): validate_member succeeds exactly when the identity's
credential is a basic credential — no self-signature or public-key check
is performed — and fails with BasicIdentityProviderError carrying the
credential type for every non-basic credential. -/
theorem c9_basic_validate_member (s : SigningIdentity) (ts : Option Nat)
    (exts : Option ExtensionList) :
    (basicValidateMember s ts exts = .ok () ↔
      (s.credential.asBasic).isSome = true) ∧
    ((s.credential.asBasic).isSome = false →
      basicValidateMember s ts exts = .error ⟨s.credential.credentialType⟩) := by
  cases h : s.credential with
  | basic identifier =>
    simp [basicValidateMember, resolveBasicIdentity, Credential.asBasic, h,
      Except.map]
  | x509 d =>
    simp [basicValidateMember, resolveBasicIdentity, Credential.asBasic, h,
      Except.map]
  | custom t d =>
    simp [basicValidateMember, resolveBasicIdentity, Credential.asBasic, h,
      Except.map]

/-- C9 witness: an x509 credential is rejected with its credential type. -/
theorem c9_basic_validate_member_witness :
    basicValidateMember ⟨.x509 [7], []⟩ none none = .error ⟨2⟩ :=
  (c9_basic_validate_member ⟨.x509 [7], []⟩ none none).2 (by decide)

/-! ## Claim C1: the caller's tree is never mutated -/

/-- C1: apply_proposals never mutates the caller's original tree.  In this
embedding the caller's tree is threaded through applyProposalsWithCallerTree
as explicit state the applier body could update; the theorem states that
for every sender, strategy, bundle and commit time the state coming back is
the state passed in — also on the error path, where the Except value
carries no tree at all, so no partial application of the batch is
observable through the caller's tree — and that the result is a function
of the tree's value at call time alone, which is the clone taken by
ProposalState::new(self.original_tree.clone(), ...). -/
theorem c1_apply_proposals_preserves_caller_tree (ctx : ApplierCtx)
    (s : FilterStrategy) (commitSender : Sender) (proposals : ProposalBundle)
    (commitTime : Option Nat) (t : TreeKemPublic) :
    (applyProposalsWithCallerTree ctx s commitSender proposals commitTime t).2 = t ∧
    (applyProposalsWithCallerTree ctx s commitSender proposals commitTime t).1 =
      applyProposals { ctx with originalTree := t } s commitSender proposals
        commitTime :=
  ⟨rfl, rfl⟩

/-! ## Claim C8: committer self-update -/

/-- C8 counterexample: Member 0 commits a batch whose only proposal is a
by-value Update with sender Member(0), under FailInvalidProposal.  The
claim predicts InvalidCommitSelfUpdate; the code rejects the proposal
earlier, at proposer authorization (a Member may not send a by-value
Update, per the claim's own table), with InvalidProposalTypeForSender. -/
theorem c8_self_update_counterexample :
    applyProposals c8Ctx .failInvalidProposal (.member 0)
        { ProposalBundle.empty with updates := [⟨⟨c8Leaf⟩, .member 0, false⟩] }
        none =
      .error (.invalidProposalTypeForSender ptUpdate (.member 0) false) ∧
    applyProposals c8Ctx .failInvalidProposal (.member 0)
        { ProposalBundle.empty with updates := [⟨⟨c8Leaf⟩, .member 0, false⟩] }
        none ≠
      .error .invalidCommitSelfUpdate := by
  refine ⟨rfl, fun h => ?_⟩
  rw [show applyProposals c8Ctx .failInvalidProposal (.member 0)
      { ProposalBundle.empty with updates := [⟨⟨c8Leaf⟩, .member 0, false⟩] }
      none =
    .error (.invalidProposalTypeForSender ptUpdate (.member 0) false) from rfl] at h
  exact ProposalFilterError.noConfusion (Except.error.inj h)

/-- C8 (amended): when Member(c) commits a batch whose only proposal is a
by-reference Update with sender Member(c), the applier fails with
InvalidCommitSelfUpdate under FailInvalidProposal and silently drops the
Update under IgnoreInvalidByRefProposal; a by-value self-Update instead
aborts the batch under both strategies with InvalidProposalTypeForSender,
because Member by-value Updates already fail proposer authorization. -/
theorem c8_self_update (ctx : ApplierCtx) (c : Nat) (leaf : LeafNode)
    (upd : UpdateProposal) (time : Option Nat)
    (hleaf : ctx.originalTree.getLeafNode c = .ok leaf) :
    applyProposals ctx .failInvalidProposal (.member c)
        ⟨[], [⟨upd, .member c, true⟩], [], [], [], [], [], []⟩ time =
      .error .invalidCommitSelfUpdate ∧
    applyProposals ctx .ignoreInvalidByRefProposal (.member c)
        ⟨[], [⟨upd, .member c, true⟩], [], [], [], [], [], []⟩ time =
      .ok ⟨ctx.originalTree, ⟨[], [], [], [], [], [], [], []⟩, [], [], none⟩ ∧
    applyProposals ctx .failInvalidProposal (.member c)
        ⟨[], [⟨upd, .member c, false⟩], [], [], [], [], [], []⟩ time =
      .error (.invalidProposalTypeForSender ptUpdate (.member c) false) ∧
    applyProposals ctx .ignoreInvalidByRefProposal (.member c)
        ⟨[], [⟨upd, .member c, false⟩], [], [], [], [], [], []⟩ time =
      .error (.invalidProposalTypeForSender ptUpdate (.member c) false) := by
  have hcan : proposerCanPropose (.member c) ptUpdate true = true := by
    simp [proposerCanPropose, ptUpdate]
  have hcannot : proposerCanPropose (.member c) ptUpdate false = false := by
    simp [proposerCanPropose, ptUpdate, ptAdd, ptRemove, ptPsk, ptReInit,
      ptGroupContextExtensions]
  have hres : ∀ es, validateProposerRes ctx.originalTree es ptUpdate (.member c) true = .ok () := by
    intro es
    simp [validateProposerRes, hcan, validateSender, hleaf]
  have hres2 : ∀ es, validateProposerRes ctx.originalTree es ptUpdate (.member c) false =
      .error (.invalidProposalTypeForSender ptUpdate (.member c) false) := by
    intro es
    simp [validateProposerRes, hcannot]
  have hprop : ∀ s, filterOutInvalidProposers s ctx.originalTree
      ctx.originalGroupExtensions
      ⟨[], [⟨upd, .member c, true⟩], [], [], [], [], [], []⟩ =
      .ok ⟨[], [⟨upd, .member c, true⟩], [], [], [], [], [], []⟩ := by
    intro s
    simp [filterOutInvalidProposers, validateProposerRetain,
      retainE, hres, applyStrategy]
  have hprop2 : ∀ s, filterOutInvalidProposers s ctx.originalTree
      ctx.originalGroupExtensions
      ⟨[], [⟨upd, .member c, false⟩], [], [], [], [], [], []⟩ =
      .error (.invalidProposalTypeForSender ptUpdate (.member c) false) := by
    intro s
    cases s <;>
      simp [filterOutInvalidProposers, validateProposerRetain,
        retainE, hres2, applyStrategy, FilterStrategy.ignoreRef]
  have htail : ∀ s, applyProposalChanges ctx s
      ⟨ctx.originalTree, ⟨[], [], [], [], [], [], [], []⟩, [], [], none⟩ time =
      .ok ⟨ctx.originalTree, ⟨[], [], [], [], [], [], [], []⟩, [], [], none⟩ := by
    intro s
    simp [applyProposalChanges,
      ProposalBundle.groupContextExtensionsProposal,
      ProposalState.clearGce, ProposalBundle.clearGroupContextExtensions,
      applyTreeChanges, validateNewNodes, goValidateUpdates, goValidateAdds,
      goExtractUpdates, batchEdit, goEditUpdates, goEditRemovals, goEditAdds,
      removeAtIndices]
  refine ⟨?_, ?_, ?_, ?_⟩
  · simp [applyProposals, applyProposalsFromMember, hprop,
      filterOutUpdateForCommitter, retainE, applyStrategy,
      FilterStrategy.ignoreRef]
  · simp [applyProposals, applyProposalsFromMember, hprop,
      filterOutUpdateForCommitter, retainE, applyStrategy,
      FilterStrategy.ignoreRef,
      filterOutRemovalOfCommitter, filterOutExtraRemovalOrUpdateForSameLeaf,
      goRemovalsSameLeaf, goUpdatesSameLeaf, filterOutInvalidPsks, goPsks,
      filterOutInvalidGroupExtensions, filterOutExtraGroupContextExtensions,
      goExtraGce, filterOutInvalidReinit, filterOutReinitIfOtherProposals,
      goReinitAlone, ProposalBundle.proposalTypes, filterOutExternalInit,
      htail, filterOutUnsupportedCustomProposals, retainE, ProposalState.new]
  · simp [applyProposals, applyProposalsFromMember, hprop2]
  · simp [applyProposals, applyProposalsFromMember, hprop2]

/-- C8 witness: the amended behavior at the concrete one-member context, on
the by-reference self-update under FailInvalidProposal. -/
theorem c8_self_update_witness :
    applyProposals c8Ctx .failInvalidProposal (.member 0)
        ⟨[], [⟨⟨c8Leaf⟩, .member 0, true⟩], [], [], [], [], [], []⟩ none =
      .error .invalidCommitSelfUpdate :=
  (c8_self_update c8Ctx 0 c8Leaf ⟨c8Leaf⟩ none rfl).1

/-! ## PSK filter characterization (claims C6 and C10) -/

/-- Under FailInvalidProposal the PSK fold either keeps the whole list or
aborts. -/
theorem goPsks_fail_cases (kdf : Nat) (v : ExternalPskIdValidatorM) :
    ∀ (l : List (ProposalInfo PreSharedKeyProposal)) (seen : List PreSharedKeyID),
      goPsks .failInvalidProposal kdf v seen l = .ok l ∨
      ∃ e, goPsks .failInvalidProposal kdf v seen l = .error e := by
  intro l
  induction l with
  | nil => intro seen; left; rfl
  | cons p ps ih =>
    intro seen
    cases hc : pskCheckRes kdf v seen p with
    | error e =>
      right
      exact ⟨e, by simp [goPsks, applyStrategy, hc, FilterStrategy.ignoreRef]⟩
    | ok u =>
      rcases ih (p.proposal.psk :: seen) with h | ⟨e, h⟩
      · left; simp [goPsks, applyStrategy, hc, h]
      · right; exact ⟨e, by simp [goPsks, applyStrategy, hc, h]⟩

/-- Under FailInvalidProposal the PSK fold succeeds (returning the list
unchanged) exactly when every proposal's rule passes against the ids of
all earlier proposals. -/
theorem goPsks_fail_ok_iff (kdf : Nat) (v : ExternalPskIdValidatorM) :
    ∀ (l : List (ProposalInfo PreSharedKeyProposal)) (seen : List PreSharedKeyID),
      goPsks .failInvalidProposal kdf v seen l = .ok l ↔
      ∀ k p, l.get? k = some p →
        pskCheckRes kdf v
          (((l.take k).map (fun q => q.proposal.psk)).reverse ++ seen) p = .ok () := by
  intro l
  induction l with
  | nil =>
    intro seen
    constructor
    · intro _ k p hk; simp at hk
    · intro _; rfl
  | cons p ps ih =>
    intro seen
    cases hc : pskCheckRes kdf v seen p with
    | error e =>
      constructor
      · intro h
        exfalso
        simp [goPsks, applyStrategy, hc, FilterStrategy.ignoreRef] at h
      · intro h
        exfalso
        have h0 := h 0 p (by simp)
        simp [hc] at h0
    | ok u =>
      cases u
      constructor
      · intro h k p2 hk
        have htail : goPsks .failInvalidProposal kdf v (p.proposal.psk :: seen) ps = .ok ps := by
          rcases goPsks_fail_cases kdf v ps (p.proposal.psk :: seen) with ht | ⟨e, ht⟩
          · exact ht
          · exfalso; simp [goPsks, applyStrategy, hc, ht] at h
        cases k with
        | zero =>
          have hp : p = p2 := by simpa using hk
          subst hp
          simpa using hc
        | succ j =>
          have hk2 : ps.get? j = some p2 := hk
          have := (ih (p.proposal.psk :: seen)).1 htail j p2 hk2
          simpa [List.append_assoc] using this
      · intro h
        have htail : goPsks .failInvalidProposal kdf v (p.proposal.psk :: seen) ps = .ok ps := by
          refine (ih (p.proposal.psk :: seen)).2 (fun k p2 hk => ?_)
          have hk2 : (p :: ps).get? (k + 1) = some p2 := hk
          have := h (k + 1) p2 hk2
          simpa [List.append_assoc] using this
        simp [goPsks, applyStrategy, hc, htail]

/-- Under FailInvalidProposal an aborting PSK fold reports the rule error
of some proposal, evaluated against the ids of all earlier proposals. -/
theorem goPsks_fail_error_ex (kdf : Nat) (v : ExternalPskIdValidatorM) :
    ∀ (l : List (ProposalInfo PreSharedKeyProposal)) (seen : List PreSharedKeyID)
      (e : ProposalFilterError),
      goPsks .failInvalidProposal kdf v seen l = .error e →
      ∃ k p, l.get? k = some p ∧
        pskCheckRes kdf v
          (((l.take k).map (fun q => q.proposal.psk)).reverse ++ seen) p = .error e := by
  intro l
  induction l with
  | nil => intro seen e h; simp [goPsks] at h
  | cons p ps ih =>
    intro seen e h
    cases hc : pskCheckRes kdf v seen p with
    | error e0 =>
      have he : e0 = e := by
        simp [goPsks, applyStrategy, hc, FilterStrategy.ignoreRef] at h
        exact h
      exact ⟨0, p, by simp, by simpa [he] using hc⟩
    | ok u =>
      rcases goPsks_fail_cases kdf v ps (p.proposal.psk :: seen) with ht | ⟨e1, ht⟩
      · exfalso; simp [goPsks, applyStrategy, hc, ht] at h
      · have he : e1 = e := by
          simp [goPsks, applyStrategy, hc, ht] at h
          exact h
        subst he
        rcases ih (p.proposal.psk :: seen) e1 ht with ⟨k, p2, hk, hres⟩
        have hk2 : (p :: ps).get? (k + 1) = some p2 := hk
        refine ⟨k + 1, p2, hk2, ?_⟩
        simpa [List.append_assoc] using hres

/-- Under IgnoreInvalidByRefProposal, when every failing PSK proposal is by
reference, the fold succeeds and keeps exactly the passing proposals. -/
theorem goPsks_ignore_ok (kdf : Nat) (v : ExternalPskIdValidatorM) :
    ∀ (l : List (ProposalInfo PreSharedKeyProposal)) (seen : List PreSharedKeyID),
      (∀ k p, l.get? k = some p →
        (pskCheckRes kdf v
          (((l.take k).map (fun q => q.proposal.psk)).reverse ++ seen) p).isOk = false →
        p.byRef = true) →
      goPsks .ignoreInvalidByRefProposal kdf v seen l =
        .ok (pskSurvivorsAux kdf v seen l) := by
  intro l
  induction l with
  | nil => intro seen _; rfl
  | cons p ps ih =>
    intro seen h
    have htail := ih (p.proposal.psk :: seen) (fun k p2 hk hbad => by
      have hk2 : (p :: ps).get? (k + 1) = some p2 := hk
      refine h (k + 1) p2 hk2 ?_
      simpa [List.append_assoc] using hbad)
    cases hc : pskCheckRes kdf v seen p with
    | ok u =>
      cases u
      simp [goPsks, applyStrategy, hc, htail, pskSurvivorsAux, Except.isOk,
        Except.toBool]
    | error e =>
      have hbr : p.byRef = true := h 0 p (by simp)
        (by simp [hc, Except.isOk, Except.toBool])
      simp [goPsks, applyStrategy, hc, htail, pskSurvivorsAux, Except.isOk,
        Except.toBool, hbr, FilterStrategy.ignoreRef]

/-- C6 counterexample: two by-value external PSK proposals with the same
key id but different nonces of the correct length pass the filter under
FailInvalidProposal; the claim's reading of rule 10 (the key id must be
unique within the batch) predicts DuplicatePskIds here, but the seen set
of the source stores the full PreSharedKeyID including the nonce, so no
duplicate is detected. -/
theorem c6_psk_counterexample :
    filterOutInvalidPsks .failInvalidProposal ⟨2⟩
        ⟨[], [], [], [⟨⟨⟨.external [1], [0, 0]⟩⟩, .member 0, false⟩,
                      ⟨⟨⟨.external [1], [1, 1]⟩⟩, .member 0, false⟩],
          [], [], [], []⟩
        ⟨fun _ => true⟩ =
      .ok ⟨[], [], [], [⟨⟨⟨.external [1], [0, 0]⟩⟩, .member 0, false⟩,
                        ⟨⟨⟨.external [1], [1, 1]⟩⟩, .member 0, false⟩],
            [], [], [], []⟩ ∧
    filterOutInvalidPsks .failInvalidProposal ⟨2⟩
        ⟨[], [], [], [⟨⟨⟨.external [1], [0, 0]⟩⟩, .member 0, false⟩,
                      ⟨⟨⟨.external [1], [1, 1]⟩⟩, .member 0, false⟩],
          [], [], [], []⟩
        ⟨fun _ => true⟩ ≠
      .error .duplicatePskIds := by
  refine ⟨rfl, fun h => ?_⟩
  rw [show filterOutInvalidPsks .failInvalidProposal ⟨2⟩
      ⟨[], [], [], [⟨⟨⟨.external [1], [0, 0]⟩⟩, .member 0, false⟩,
                    ⟨⟨⟨.external [1], [1, 1]⟩⟩, .member 0, false⟩],
        [], [], [], []⟩
      ⟨fun _ => true⟩ =
    .ok ⟨[], [], [], [⟨⟨⟨.external [1], [0, 0]⟩⟩, .member 0, false⟩,
                      ⟨⟨⟨.external [1], [1, 1]⟩⟩, .member 0, false⟩],
          [], [], [], []⟩ from rfl] at h
  exact Except.noConfusion h

/-- C6 (amended): for every PSK proposal the filter applies, in order, the
type/usage rule (the key id must be External, or Resumption with
Application usage), the nonce-length rule against the ciphersuite's
kdf-extract size, the duplicate rule — which fires when the proposal's
entire PreSharedKeyID, key id together with nonce, equals that of an
earlier proposal of the batch — and the external-adapter rule, exactly as
pskCheckRes states them; under FailInvalidProposal the batch succeeds
unchanged exactly when every proposal passes, and an abort reports some
proposal's own rule error; under IgnoreInvalidByRefProposal, when every
failing proposal is by reference, the failing proposals are silently
dropped and the surviving batch is exactly the passing proposals. -/
theorem c6_psk_rules (csp : CipherSuiteProviderM) (v : ExternalPskIdValidatorM)
    (b : ProposalBundle) :
    (filterOutInvalidPsks .failInvalidProposal csp b v = .ok b ↔
      ∀ k p, b.psks.get? k = some p →
        pskCheckRes csp.kdfExtractSize v (priorPsks b.psks k) p = .ok ()) ∧
    (∀ e, filterOutInvalidPsks .failInvalidProposal csp b v = .error e →
      ∃ k p, b.psks.get? k = some p ∧
        pskCheckRes csp.kdfExtractSize v (priorPsks b.psks k) p = .error e) ∧
    ((∀ k p, b.psks.get? k = some p →
        (pskCheckRes csp.kdfExtractSize v (priorPsks b.psks k) p).isOk = false →
        p.byRef = true) →
      filterOutInvalidPsks .ignoreInvalidByRefProposal csp b v =
        .ok { b with psks := pskSurvivorsAux csp.kdfExtractSize v [] b.psks }) := by
  refine ⟨?_, ?_, ?_⟩
  · constructor
    · intro h k p hk
      have hg : goPsks .failInvalidProposal csp.kdfExtractSize v [] b.psks = .ok b.psks := by
        rcases goPsks_fail_cases csp.kdfExtractSize v b.psks [] with hg | ⟨e, hg⟩
        · exact hg
        · exfalso; simp [filterOutInvalidPsks, hg] at h
      have := (goPsks_fail_ok_iff csp.kdfExtractSize v b.psks []).1 hg k p hk
      simpa [priorPsks] using this
    · intro h
      have hg : goPsks .failInvalidProposal csp.kdfExtractSize v [] b.psks = .ok b.psks := by
        refine (goPsks_fail_ok_iff csp.kdfExtractSize v b.psks []).2 (fun k p hk => ?_)
        simpa [priorPsks] using h k p hk
      simp [filterOutInvalidPsks, hg]
  · intro e h
    have hg : goPsks .failInvalidProposal csp.kdfExtractSize v [] b.psks = .error e := by
      rcases goPsks_fail_cases csp.kdfExtractSize v b.psks [] with hg | ⟨e1, hg⟩
      · exfalso; simp [filterOutInvalidPsks, hg] at h
      · have : e1 = e := by simp [filterOutInvalidPsks, hg] at h; exact h
        exact this ▸ hg
    rcases goPsks_fail_error_ex csp.kdfExtractSize v b.psks [] e hg with ⟨k, p, hk, hres⟩
    exact ⟨k, p, hk, by simpa [priorPsks] using hres⟩
  · intro h
    have hg := goPsks_ignore_ok csp.kdfExtractSize v b.psks []
      (fun k p hk hbad => h k p hk (by simpa [priorPsks] using hbad))
    simp [filterOutInvalidPsks, hg]

/-- C6 witness: with kdf-extract size 2, a by-reference PSK proposal whose
nonce has length 1 is dropped under IgnoreInvalidByRefProposal and the
remaining (valid) proposal survives. -/
theorem c6_psk_rules_witness :
    filterOutInvalidPsks .ignoreInvalidByRefProposal ⟨2⟩
        ⟨[], [], [], [⟨⟨⟨.external [1], [0]⟩⟩, .member 0, true⟩,
                      ⟨⟨⟨.external [2], [0, 0]⟩⟩, .member 0, false⟩],
          [], [], [], []⟩
        ⟨fun _ => true⟩ =
      .ok ⟨[], [], [], [⟨⟨⟨.external [2], [0, 0]⟩⟩, .member 0, false⟩],
            [], [], [], []⟩ :=
  (c6_psk_rules ⟨2⟩ ⟨fun _ => true⟩
    ⟨[], [], [], [⟨⟨⟨.external [1], [0]⟩⟩, .member 0, true⟩,
                  ⟨⟨⟨.external [2], [0, 0]⟩⟩, .member 0, false⟩],
      [], [], [], []⟩).2.2 (by
    intro k p hk hbad
    cases k with
    | zero =>
      have hp : p = ⟨⟨⟨.external [1], [0]⟩⟩, .member 0, true⟩ := by
        simpa using hk.symm
      rw [hp]
    | succ j =>
      cases j with
      | zero =>
        have hp : p = ⟨⟨⟨.external [2], [0, 0]⟩⟩, .member 0, false⟩ := by
          simpa using hk.symm
        rw [hp] at hbad
        exact absurd hbad (by decide)
      | succ i => simp at hk)

/-- C10 counterexample: a by-reference PSK proposal with key id K and an
invalid nonce length is dropped under IgnoreInvalidByRefProposal, and a
later by-value proposal with the same key id K (and a valid nonce)
SUCCEEDS: the seen set stores the full id including the nonce, so the
differing nonces do not collide, contradicting the claim that the later
proposal still fails with DuplicatePskIds. -/
theorem c10_psk_counterexample :
    filterOutInvalidPsks .ignoreInvalidByRefProposal ⟨2⟩
        ⟨[], [], [], [⟨⟨⟨.external [1], [0]⟩⟩, .member 0, true⟩,
                      ⟨⟨⟨.external [1], [0, 0]⟩⟩, .member 0, false⟩],
          [], [], [], []⟩
        ⟨fun _ => true⟩ =
      .ok ⟨[], [], [], [⟨⟨⟨.external [1], [0, 0]⟩⟩, .member 0, false⟩],
            [], [], [], []⟩ ∧
    filterOutInvalidPsks .ignoreInvalidByRefProposal ⟨2⟩
        ⟨[], [], [], [⟨⟨⟨.external [1], [0]⟩⟩, .member 0, true⟩,
                      ⟨⟨⟨.external [1], [0, 0]⟩⟩, .member 0, false⟩],
          [], [], [], []⟩
        ⟨fun _ => true⟩ ≠
      .error .duplicatePskIds := by
  refine ⟨rfl, fun h => ?_⟩
  rw [show filterOutInvalidPsks .ignoreInvalidByRefProposal ⟨2⟩
      ⟨[], [], [], [⟨⟨⟨.external [1], [0]⟩⟩, .member 0, true⟩,
                    ⟨⟨⟨.external [1], [0, 0]⟩⟩, .member 0, false⟩],
        [], [], [], []⟩
      ⟨fun _ => true⟩ =
    .ok ⟨[], [], [], [⟨⟨⟨.external [1], [0, 0]⟩⟩, .member 0, false⟩],
          [], [], [], []⟩ from rfl] at h
  exact Except.noConfusion h

/-- C10 (amended): every PSK proposal inserts its full PreSharedKeyID (key
id together with nonce) into the seen set even when it fails validation
and is dropped.  Because the set is keyed on the full id and the type and
nonce rules take precedence, the observable consequence concerns
adapter-rejected proposals: when a by-reference PSK proposal is dropped
because the external adapter rejects its key id, a later proposal carrying
the identical key id and nonce still fails with DuplicatePskIds under
IgnoreInvalidByRefProposal — dropped silently when by reference, aborting
the batch when by value — even though no proposal with that id survives. -/
theorem c10_psk_seen_insertion (csp : CipherSuiteProviderM)
    (v : ExternalPskIdValidatorM) (b : ProposalBundle)
    (p1 p2 : ProposalInfo PreSharedKeyProposal)
    (hpsks : b.psks = [p1, p2])
    (hsame : p1.proposal.psk = p2.proposal.psk)
    (href : p1.byRef = true)
    (hfail : pskCheckRes csp.kdfExtractSize v [] p1 = .error .pskIdValidationError) :
    pskCheckRes csp.kdfExtractSize v [p1.proposal.psk] p2 = .error .duplicatePskIds ∧
    (p2.byRef = true →
      filterOutInvalidPsks .ignoreInvalidByRefProposal csp b v =
        .ok { b with psks := [] }) ∧
    (p2.byRef = false →
      filterOutInvalidPsks .ignoreInvalidByRefProposal csp b v =
        .error .duplicatePskIds) := by
  have hdup : pskCheckRes csp.kdfExtractSize v [p1.proposal.psk] p2 =
      .error .duplicatePskIds := by
    cases hk : p1.proposal.psk.keyId with
    | resumption r =>
      exfalso
      by_cases hu : r.usage = ResumptionPSKUsage.application
      · by_cases hn : p1.proposal.psk.pskNonce.length = csp.kdfExtractSize
        · simp [pskCheckRes, hk, hu, hn] at hfail
        · simp [pskCheckRes, hk, hu, hn] at hfail
      · simp [pskCheckRes, hk, hu] at hfail
    | external id =>
      by_cases hn : p1.proposal.psk.pskNonce.length = csp.kdfExtractSize
      · simp [pskCheckRes, ← hsame, hk, hn]
      · exfalso; simp [pskCheckRes, hk, hn] at hfail
  refine ⟨hdup, ?_, ?_⟩
  · intro hr2
    simp [filterOutInvalidPsks, hpsks, goPsks, applyStrategy, hfail, href,
      FilterStrategy.ignoreRef, hdup, hr2]
  · intro hr2
    simp [filterOutInvalidPsks, hpsks, goPsks, applyStrategy, hfail, href,
      FilterStrategy.ignoreRef, hdup, hr2]

/-- C10 witness: the amended behavior at a concrete batch whose first,
by-reference proposal is adapter-rejected and whose second carries the
identical key id and nonce. -/
theorem c10_psk_seen_insertion_witness :
    pskCheckRes 2 ⟨fun _ => false⟩ [⟨.external [1], [0, 0]⟩]
        ⟨⟨⟨.external [1], [0, 0]⟩⟩, .member 0, true⟩ =
      .error .duplicatePskIds :=
  (c10_psk_seen_insertion ⟨2⟩ ⟨fun _ => false⟩
    ⟨[], [], [], [⟨⟨⟨.external [1], [0, 0]⟩⟩, .member 0, true⟩,
                  ⟨⟨⟨.external [1], [0, 0]⟩⟩, .member 0, true⟩],
      [], [], [], []⟩
    ⟨⟨⟨.external [1], [0, 0]⟩⟩, .member 0, true⟩
    ⟨⟨⟨.external [1], [0, 0]⟩⟩, .member 0, true⟩
    rfl rfl rfl rfl).1

/-! ## Last-update-index lemmas (claim C5) -/

/-- lastIdxFrom only returns positions at or after its start. -/
theorem lastIdxFrom_ge (i : Nat) :
    ∀ (l : List (ProposalInfo UpdateProposal)) (n j : Nat),
      lastIdxFrom i n l = some j → n ≤ j := by
  intro l
  induction l with
  | nil => intro n j h; simp [lastIdxFrom] at h
  | cons p ps ih =>
    intro n j h
    unfold lastIdxFrom at h
    cases hl : lastIdxFrom i (n + 1) ps with
    | some j2 =>
      rw [hl] at h
      have hj : j2 = j := by simpa using h
      have := ih (n + 1) j2 hl
      omega
    | none =>
      rw [hl] at h
      by_cases hp : p.sender = Sender.member i
      · simp [hp] at h
        omega
      · simp [hp] at h

/-- lastIdxFrom is none exactly when no element has the Member sender. -/
theorem lastIdxFrom_none_iff (i : Nat) :
    ∀ (l : List (ProposalInfo UpdateProposal)) (n : Nat),
      lastIdxFrom i n l = none ↔ ∀ q ∈ l, ¬(q.sender = Sender.member i) := by
  intro l
  induction l with
  | nil => intro n; simp [lastIdxFrom]
  | cons p ps ih =>
    intro n
    unfold lastIdxFrom
    cases hl : lastIdxFrom i (n + 1) ps with
    | some j =>
      simp only []
      constructor
      · intro h; exact absurd h (by simp)
      · intro h
        exfalso
        have : lastIdxFrom i (n + 1) ps = none :=
          (ih (n + 1)).2 (fun q hq => h q (List.mem_cons_of_mem p hq))
        rw [hl] at this
        exact Option.noConfusion this
    | none =>
      have htail : ∀ q ∈ ps, ¬(q.sender = Sender.member i) := (ih (n + 1)).1 hl
      by_cases hp : p.sender = Sender.member i
      · simp [hp]
      · simp only [if_neg hp]
        constructor
        · intro _
          intro q hq
          rcases List.mem_cons.1 hq with hq | hq
          · rw [hq]; exact hp
          · exact htail q hq
        · intro _; trivial

/-- lastIdxFrom over an append: a hit in the right part wins, otherwise the
left part decides. -/
theorem lastIdxFrom_append (i : Nat) :
    ∀ (l1 l2 : List (ProposalInfo UpdateProposal)) (n : Nat),
      lastIdxFrom i n (l1 ++ l2) =
        (match lastIdxFrom i (n + l1.length) l2 with
         | some j => some j
         | none => lastIdxFrom i n l1) := by
  intro l1
  induction l1 with
  | nil =>
    intro l2 n
    cases h : lastIdxFrom i n l2 with
    | some j => simp [h]
    | none => simp [h, lastIdxFrom]
  | cons p l1 ih =>
    intro l2 n
    have harith : n + 1 + l1.length = n + (l1.length + 1) := by omega
    have hstep : lastIdxFrom i n ((p :: l1) ++ l2) =
        (match lastIdxFrom i (n + 1) (l1 ++ l2) with
         | some j => some j
         | none => if p.sender = Sender.member i then some n else none) := rfl
    rw [hstep, ih l2 (n + 1), harith]
    simp only [List.length_cons]
    cases h : lastIdxFrom i (n + (l1.length + 1)) l2 with
    | some j => rfl
    | none => rfl

/-- The bridge between the last-update map of the source and the claim's
wording: at the position of an Update from Member(i), the map points at
this position exactly when no later update has that sender. -/
theorem lastUpdateIdx_at (allUps : List (ProposalInfo UpdateProposal))
    (idx : Nat) (p : ProposalInfo UpdateProposal)
    (ps : List (ProposalInfo UpdateProposal)) (i : Nat)
    (hdrop : allUps.drop idx = p :: ps) (hp : p.sender = Sender.member i) :
    (lastUpdateIdx allUps i = some idx ↔
      ps.any (fun q => decide (q.sender = Sender.member i)) = false) := by
  have hlen : (allUps.take idx).length = idx := by
    have hne : ¬allUps.length ≤ idx := by
      intro hle
      rw [List.drop_eq_nil_of_le hle] at hdrop
      exact List.noConfusion hdrop
    simp [List.length_take]
    omega
  have hsplit : allUps = allUps.take idx ++ (p :: ps) := by
    conv_lhs => rw [← List.take_append_drop idx allUps]
    rw [hdrop]
  have hmain : lastUpdateIdx allUps i =
      (match lastIdxFrom i idx (p :: ps) with
       | some j => some j
       | none => lastIdxFrom i 0 (allUps.take idx)) := by
    unfold lastUpdateIdx
    conv_lhs => rw [hsplit]
    rw [lastIdxFrom_append i (allUps.take idx) (p :: ps) 0, hlen]
    simp only [Nat.zero_add]
  cases hl : lastIdxFrom i (idx + 1) ps with
  | some j =>
    have hge : idx + 1 ≤ j := lastIdxFrom_ge i ps (idx + 1) j hl
    have hval : lastUpdateIdx allUps i = some j := by
      rw [hmain]
      unfold lastIdxFrom
      rw [hl]
    constructor
    · intro h
      rw [hval] at h
      have : j = idx := Option.some.inj h
      omega
    · intro h
      exfalso
      have hnone : lastIdxFrom i (idx + 1) ps = none := by
        rw [lastIdxFrom_none_iff]
        intro q hq
        have := List.any_eq_false.1 h q hq
        simpa using this
      rw [hl] at hnone
      exact Option.noConfusion hnone
  | none =>
    have hval : lastUpdateIdx allUps i = some idx := by
      rw [hmain]
      unfold lastIdxFrom
      rw [hl, if_pos hp]
    rw [hval]
    have hany : ps.any (fun q => decide (q.sender = Sender.member i)) = false := by
      rw [List.any_eq_false]
      intro q hq
      have := (lastIdxFrom_none_iff i ps (idx + 1)).1 hl q hq
      simpa using this
    simp [hany]

/-! ## Removal-phase lemmas (claim C5) -/

/-- The failing strategy passes the removal phase only unchanged, with no
duplicate removal, and the final seen set holds the initial set plus every
removal target. -/
theorem goRem_fail_ok :
    ∀ (rems : List (ProposalInfo RemoveProposal)) (seen : List Nat)
      (out : List (ProposalInfo RemoveProposal) × List Nat),
      goRemovalsSameLeaf .failInvalidProposal seen rems = .ok out →
      out.1 = rems ∧ (∀ i, hasDupRemoveFor seen i rems = false) ∧
      (∀ x, x ∈ out.2 ↔ x ∈ seen ∨ ∃ p, p ∈ rems ∧ p.proposal.toRemove = x) := by
  intro rems
  induction rems with
  | nil =>
    intro seen out h
    have hout : out = ([], seen) := by
      simpa [goRemovalsSameLeaf] using h.symm
    subst hout
    refine ⟨rfl, fun i => rfl, fun x => ?_⟩
    simp
  | cons p ps ih =>
    intro seen out h
    by_cases hm : p.proposal.toRemove ∈ seen
    · exfalso
      simp [goRemovalsSameLeaf, hm, FilterStrategy.ignoreRef] at h
    · cases hrec : goRemovalsSameLeaf .failInvalidProposal
          (p.proposal.toRemove :: seen) ps with
      | error e =>
        exfalso
        simp [goRemovalsSameLeaf, hm, hrec] at h
      | ok out2 =>
        have hout : out = (p :: out2.1, out2.2) := by
          have h2 := h
          simp [goRemovalsSameLeaf, hm, hrec] at h2
          cases out2 with
          | mk a b => simpa using h2.symm
        rcases ih (p.proposal.toRemove :: seen) out2 hrec with ⟨h1, h2, h3⟩
        subst hout
        refine ⟨by simp [h1], fun i => ?_, fun x => ?_⟩
        · unfold hasDupRemoveFor
          rcases h2 i with h2i
          simp only [h2i, Bool.or_false]
          by_cases hti : p.proposal.toRemove = i
          · subst hti; simp [hm]
          · simp [hti]
        · have := h3 x
          constructor
          · intro hx
            rcases (this.1 hx) with hx2 | ⟨q, hq, hqt⟩
            · rcases List.mem_cons.1 hx2 with hx3 | hx3
              · exact Or.inr ⟨p, List.mem_cons_self p ps, hx3.symm⟩
              · exact Or.inl hx3
            · exact Or.inr ⟨q, List.mem_cons_of_mem p hq, hqt⟩
          · intro hx
            rcases hx with hx | ⟨q, hq, hqt⟩
            · exact this.2 (Or.inl (List.mem_cons_of_mem _ hx))
            · rcases List.mem_cons.1 hq with hq2 | hq2
              · subst hq2
                exact this.2 (Or.inl (by simp [hqt]))
              · exact this.2 (Or.inr ⟨q, hq2, hqt⟩)

/-- When no removal duplicates a leaf, the failing strategy passes the
removal phase. -/
theorem goRem_fail_ok_exists :
    ∀ (rems : List (ProposalInfo RemoveProposal)) (seen : List Nat),
      (∀ i, hasDupRemoveFor seen i rems = false) →
      ∃ sF, goRemovalsSameLeaf .failInvalidProposal seen rems = .ok (rems, sF) := by
  intro rems
  induction rems with
  | nil => intro seen _; exact ⟨seen, rfl⟩
  | cons p ps ih =>
    intro seen h
    have hm : p.proposal.toRemove ∉ seen := by
      intro hmem
      have := h p.proposal.toRemove
      unfold hasDupRemoveFor at this
      simp [hmem] at this
    have htail : ∀ i, hasDupRemoveFor (p.proposal.toRemove :: seen) i ps = false := by
      intro i
      have := h i
      unfold hasDupRemoveFor at this
      exact (Bool.or_eq_false_iff.1 this).2
    rcases ih (p.proposal.toRemove :: seen) htail with ⟨sF, hrec⟩
    exact ⟨sF, by simp [goRemovalsSameLeaf, hm, hrec]⟩

/-- Under the failing strategy an aborting removal phase reports the leaf
of a duplicate removal. -/
theorem goRem_fail_err :
    ∀ (rems : List (ProposalInfo RemoveProposal)) (seen : List Nat)
      (e : ProposalFilterError),
      goRemovalsSameLeaf .failInvalidProposal seen rems = .error e →
      ∃ i, e = .moreThanOneProposalForLeaf i ∧ hasDupRemoveFor seen i rems = true := by
  intro rems
  induction rems with
  | nil => intro seen e h; simp [goRemovalsSameLeaf] at h
  | cons p ps ih =>
    intro seen e h
    by_cases hm : p.proposal.toRemove ∈ seen
    · have he : e = .moreThanOneProposalForLeaf p.proposal.toRemove := by
        simp [goRemovalsSameLeaf, hm, FilterStrategy.ignoreRef] at h
        exact h.symm
      refine ⟨p.proposal.toRemove, he, ?_⟩
      unfold hasDupRemoveFor
      simp [hm]
    · cases hrec : goRemovalsSameLeaf .failInvalidProposal
          (p.proposal.toRemove :: seen) ps with
      | ok out2 =>
        exfalso
        simp [goRemovalsSameLeaf, hm, hrec] at h
      | error e2 =>
        have he : e2 = e := by
          simp [goRemovalsSameLeaf, hm, hrec] at h
          exact h
        subst he
        rcases ih (p.proposal.toRemove :: seen) e2 hrec with ⟨i, he, hdup⟩
        refine ⟨i, he, ?_⟩
        unfold hasDupRemoveFor
        simp [hdup]

/-- Under the ignoring strategy a successful removal phase keeps exactly
the first removal per leaf, and every target enters the seen set. -/
theorem goRem_ignore_ok :
    ∀ (rems : List (ProposalInfo RemoveProposal)) (seen : List Nat)
      (out : List (ProposalInfo RemoveProposal) × List Nat),
      goRemovalsSameLeaf .ignoreInvalidByRefProposal seen rems = .ok out →
      out.1 = keptRemovalsSpec seen rems ∧
      (∀ x, x ∈ out.2 ↔ x ∈ seen ∨ ∃ p, p ∈ rems ∧ p.proposal.toRemove = x) := by
  intro rems
  induction rems with
  | nil =>
    intro seen out h
    have hout : out = ([], seen) := by
      simpa [goRemovalsSameLeaf] using h.symm
    subst hout
    exact ⟨rfl, fun x => by simp⟩
  | cons p ps ih =>
    intro seen out h
    by_cases hm : p.proposal.toRemove ∈ seen
    · cases hbr : p.byRef with
      | false =>
        exfalso
        simp [goRemovalsSameLeaf, hm, FilterStrategy.ignoreRef, hbr] at h
      | true =>
        have hrec : goRemovalsSameLeaf .ignoreInvalidByRefProposal seen ps = .ok out := by
          simpa [goRemovalsSameLeaf, hm, FilterStrategy.ignoreRef, hbr] using h
        rcases ih seen out hrec with ⟨h1, h2⟩
        refine ⟨by simp [keptRemovalsSpec, hm, h1], fun x => ?_⟩
        have := h2 x
        constructor
        · intro hx
          rcases this.1 hx with hx | ⟨q, hq, hqt⟩
          · exact Or.inl hx
          · exact Or.inr ⟨q, List.mem_cons_of_mem p hq, hqt⟩
        · intro hx
          rcases hx with hx | ⟨q, hq, hqt⟩
          · exact this.2 (Or.inl hx)
          · rcases List.mem_cons.1 hq with hq2 | hq2
            · subst hq2
              exact this.2 (Or.inl (hqt ▸ hm))
            · exact this.2 (Or.inr ⟨q, hq2, hqt⟩)
    · cases hrec : goRemovalsSameLeaf .ignoreInvalidByRefProposal
          (p.proposal.toRemove :: seen) ps with
      | error e =>
        exfalso
        simp [goRemovalsSameLeaf, hm, hrec] at h
      | ok out2 =>
        have hout : out = (p :: out2.1, out2.2) := by
          have h2 := h
          simp [goRemovalsSameLeaf, hm, hrec] at h2
          cases out2 with
          | mk a b => simpa using h2.symm
        rcases ih (p.proposal.toRemove :: seen) out2 hrec with ⟨h1, h2⟩
        subst hout
        refine ⟨by simp [keptRemovalsSpec, hm, h1], fun x => ?_⟩
        have := h2 x
        constructor
        · intro hx
          rcases this.1 hx with hx2 | ⟨q, hq, hqt⟩
          · rcases List.mem_cons.1 hx2 with hx3 | hx3
            · exact Or.inr ⟨p, List.mem_cons_self p ps, hx3.symm⟩
            · exact Or.inl hx3
          · exact Or.inr ⟨q, List.mem_cons_of_mem p hq, hqt⟩
        · intro hx
          rcases hx with hx | ⟨q, hq, hqt⟩
          · exact this.2 (Or.inl (List.mem_cons_of_mem _ hx))
          · rcases List.mem_cons.1 hq with hq2 | hq2
            · subst hq2
              exact this.2 (Or.inl (by simp [hqt]))
            · exact this.2 (Or.inr ⟨q, hq2, hqt⟩)

/-! ## Update-phase lemmas (claim C5)

In each lemma allUps is the full update list (over which the last-update
map was computed), idx the global position of the suffix under processing,
and the seen-set invariant states that for every leaf whose last update
lies ahead, membership in the seen set agrees with membership in the
removed-leaf set. -/

/-- The failing strategy passes the update phase only unchanged and only
when no update offends. -/
theorem goUpd_fail_ok (allUps : List (ProposalInfo UpdateProposal))
    (removed : List Nat) :
    ∀ (ups : List (ProposalInfo UpdateProposal)) (idx : Nat) (seen : List Nat)
      (out : List (ProposalInfo UpdateProposal)),
      allUps.drop idx = ups →
      (∀ i j, lastUpdateIdx allUps i = some j → idx ≤ j → (i ∈ seen ↔ i ∈ removed)) →
      goUpdatesSameLeaf .failInvalidProposal (lastUpdateIdx allUps) seen idx ups = .ok out →
      out = ups ∧ ∀ i, badUpdateFor removed i ups = false := by
  intro ups
  induction ups with
  | nil =>
    intro idx seen out _ _ h
    have hout : out = [] := by simpa [goUpdatesSameLeaf] using h.symm
    exact ⟨hout, fun i => rfl⟩
  | cons p ps ih =>
    intro idx seen out hdrop hseen h
    have hdrop2 : allUps.drop (idx + 1) = ps := by
      have hdd : List.drop 1 (List.drop idx allUps) = List.drop (idx + 1) allUps := by
        rw [List.drop_drop]
      rw [← hdd, hdrop]
      rfl
    cases hps : p.sender with
    | member i =>
      by_cases hlast : lastUpdateIdx allUps i = some idx
      · have hany := (lastUpdateIdx_at allUps idx p ps i hdrop hps).mp hlast
        have hmem := hseen i idx hlast (Nat.le_refl idx)
        by_cases hin : i ∈ seen
        · exfalso
          have hcond : ¬(lastUpdateIdx allUps i = some idx ∧ i ∉ seen) :=
            fun hc => hc.2 hin
          simp [goUpdatesSameLeaf, hps, hcond, FilterStrategy.ignoreRef] at h
        · have hcond : lastUpdateIdx allUps i = some idx ∧ i ∉ seen := ⟨hlast, hin⟩
          cases hrec : goUpdatesSameLeaf .failInvalidProposal (lastUpdateIdx allUps)
              (i :: seen) (idx + 1) ps with
          | error e =>
            exfalso
            simp [goUpdatesSameLeaf, hps, hcond, hrec] at h
          | ok rest =>
            have hout : out = p :: rest := by
              have h2 := h
              simp [goUpdatesSameLeaf, hps, hcond, hrec] at h2
              exact h2.symm
            have hseen2 : ∀ i2 j2, lastUpdateIdx allUps i2 = some j2 → idx + 1 ≤ j2 →
                (i2 ∈ i :: seen ↔ i2 ∈ removed) := by
              intro i2 j2 hl2 hge
              by_cases hi2 : i2 = i
              · subst hi2
                rw [hlast] at hl2
                have := Option.some.inj hl2
                omega
              · rw [List.mem_cons]
                have := hseen i2 j2 hl2 (by omega)
                simp [hi2, this]
            rcases ih (idx + 1) (i :: seen) rest hdrop2 hseen2 hrec with ⟨ih1, ih2⟩
            have hrem : i ∉ removed := fun hr => hin (hmem.mpr hr)
            refine ⟨by simp [hout, ih1], fun i2 => ?_⟩
            unfold badUpdateFor
            simp only [hps, ih2 i2, Bool.or_false]
            by_cases hi2 : i = i2
            · subst hi2
              simp [hany, hrem]
            · simp [hi2]
      · exfalso
        have hcond : ¬(lastUpdateIdx allUps i = some idx ∧ i ∉ seen) :=
          fun hc => hlast hc.1
        simp [goUpdatesSameLeaf, hps, hcond, FilterStrategy.ignoreRef] at h
    | external k =>
      cases hrec : goUpdatesSameLeaf .failInvalidProposal (lastUpdateIdx allUps)
          seen (idx + 1) ps with
      | error e => exfalso; simp [goUpdatesSameLeaf, hps, hrec] at h
      | ok rest =>
        have hout : out = p :: rest := by
          have h2 := h
          simp [goUpdatesSameLeaf, hps, hrec] at h2
          exact h2.symm
        rcases ih (idx + 1) seen rest hdrop2
            (fun i2 j2 hl2 hge => hseen i2 j2 hl2 (by omega)) hrec with ⟨ih1, ih2⟩
        refine ⟨by simp [hout, ih1], fun i2 => ?_⟩
        unfold badUpdateFor
        simp [hps, ih2 i2]
    | newMemberProposal =>
      cases hrec : goUpdatesSameLeaf .failInvalidProposal (lastUpdateIdx allUps)
          seen (idx + 1) ps with
      | error e => exfalso; simp [goUpdatesSameLeaf, hps, hrec] at h
      | ok rest =>
        have hout : out = p :: rest := by
          have h2 := h
          simp [goUpdatesSameLeaf, hps, hrec] at h2
          exact h2.symm
        rcases ih (idx + 1) seen rest hdrop2
            (fun i2 j2 hl2 hge => hseen i2 j2 hl2 (by omega)) hrec with ⟨ih1, ih2⟩
        refine ⟨by simp [hout, ih1], fun i2 => ?_⟩
        unfold badUpdateFor
        simp [hps, ih2 i2]
    | newMemberCommit =>
      cases hrec : goUpdatesSameLeaf .failInvalidProposal (lastUpdateIdx allUps)
          seen (idx + 1) ps with
      | error e => exfalso; simp [goUpdatesSameLeaf, hps, hrec] at h
      | ok rest =>
        have hout : out = p :: rest := by
          have h2 := h
          simp [goUpdatesSameLeaf, hps, hrec] at h2
          exact h2.symm
        rcases ih (idx + 1) seen rest hdrop2
            (fun i2 j2 hl2 hge => hseen i2 j2 hl2 (by omega)) hrec with ⟨ih1, ih2⟩
        refine ⟨by simp [hout, ih1], fun i2 => ?_⟩
        unfold badUpdateFor
        simp [hps, ih2 i2]

/-- When no update offends, the failing strategy passes the update phase
unchanged. -/
theorem goUpd_fail_exists (allUps : List (ProposalInfo UpdateProposal))
    (removed : List Nat) :
    ∀ (ups : List (ProposalInfo UpdateProposal)) (idx : Nat) (seen : List Nat),
      allUps.drop idx = ups →
      (∀ i j, lastUpdateIdx allUps i = some j → idx ≤ j → (i ∈ seen ↔ i ∈ removed)) →
      (∀ i, badUpdateFor removed i ups = false) →
      goUpdatesSameLeaf .failInvalidProposal (lastUpdateIdx allUps) seen idx ups = .ok ups := by
  intro ups
  induction ups with
  | nil => intro idx seen _ _ _; rfl
  | cons p ps ih =>
    intro idx seen hdrop hseen hbad
    have hdrop2 : allUps.drop (idx + 1) = ps := by
      have hdd : List.drop 1 (List.drop idx allUps) = List.drop (idx + 1) allUps := by
        rw [List.drop_drop]
      rw [← hdd, hdrop]
      rfl
    have hbadtail : ∀ i, badUpdateFor removed i ps = false := by
      intro i
      have hb := hbad i
      unfold badUpdateFor at hb
      exact (Bool.or_eq_false_iff.1 hb).2
    cases hps : p.sender with
    | member i =>
      have hb := hbad i
      unfold badUpdateFor at hb
      rw [hps] at hb
      have hb1 := (Bool.or_eq_false_iff.1 hb).1
      simp only [decide_eq_true_eq] at hb1
      have hb2 : (ps.any (fun q => decide (q.sender = Sender.member i)) ||
          decide (i ∈ removed)) = false := by
        cases hx : (ps.any (fun q => decide (q.sender = Sender.member i)) ||
            decide (i ∈ removed)) with
        | false => rfl
        | true => simp [hx] at hb1
      have hany := (Bool.or_eq_false_iff.1 hb2).1
      have hrem : i ∉ removed := by
        have := (Bool.or_eq_false_iff.1 hb2).2
        simpa using this
      have hlast : lastUpdateIdx allUps i = some idx :=
        (lastUpdateIdx_at allUps idx p ps i hdrop hps).mpr hany
      have hin : i ∉ seen := fun hmem =>
        hrem ((hseen i idx hlast (Nat.le_refl idx)).mp hmem)
      have hcond : lastUpdateIdx allUps i = some idx ∧ i ∉ seen := ⟨hlast, hin⟩
      have hseen2 : ∀ i2 j2, lastUpdateIdx allUps i2 = some j2 → idx + 1 ≤ j2 →
          (i2 ∈ i :: seen ↔ i2 ∈ removed) := by
        intro i2 j2 hl2 hge
        by_cases hi2 : i2 = i
        · subst hi2
          rw [hlast] at hl2
          have := Option.some.inj hl2
          omega
        · rw [List.mem_cons]
          have := hseen i2 j2 hl2 (by omega)
          simp [hi2, this]
      have hrec := ih (idx + 1) (i :: seen) hdrop2 hseen2 hbadtail
      simp [goUpdatesSameLeaf, hps, hcond, hrec]
    | external k =>
      have hrec := ih (idx + 1) seen hdrop2
        (fun i2 j2 hl2 hge => hseen i2 j2 hl2 (by omega)) hbadtail
      simp [goUpdatesSameLeaf, hps, hrec]
    | newMemberProposal =>
      have hrec := ih (idx + 1) seen hdrop2
        (fun i2 j2 hl2 hge => hseen i2 j2 hl2 (by omega)) hbadtail
      simp [goUpdatesSameLeaf, hps, hrec]
    | newMemberCommit =>
      have hrec := ih (idx + 1) seen hdrop2
        (fun i2 j2 hl2 hge => hseen i2 j2 hl2 (by omega)) hbadtail
      simp [goUpdatesSameLeaf, hps, hrec]

/-- Under the failing strategy an aborting update phase reports the leaf of
an offending update. -/
theorem goUpd_fail_err (allUps : List (ProposalInfo UpdateProposal))
    (removed : List Nat) :
    ∀ (ups : List (ProposalInfo UpdateProposal)) (idx : Nat) (seen : List Nat)
      (e : ProposalFilterError),
      allUps.drop idx = ups →
      (∀ i j, lastUpdateIdx allUps i = some j → idx ≤ j → (i ∈ seen ↔ i ∈ removed)) →
      goUpdatesSameLeaf .failInvalidProposal (lastUpdateIdx allUps) seen idx ups = .error e →
      ∃ i, e = .moreThanOneProposalForLeaf i ∧ badUpdateFor removed i ups = true := by
  intro ups
  induction ups with
  | nil => intro idx seen e _ _ h; simp [goUpdatesSameLeaf] at h
  | cons p ps ih =>
    intro idx seen e hdrop hseen h
    have hdrop2 : allUps.drop (idx + 1) = ps := by
      have hdd : List.drop 1 (List.drop idx allUps) = List.drop (idx + 1) allUps := by
        rw [List.drop_drop]
      rw [← hdd, hdrop]
      rfl
    cases hps : p.sender with
    | member i =>
      by_cases hcond : lastUpdateIdx allUps i = some idx ∧ i ∉ seen
      · cases hrec : goUpdatesSameLeaf .failInvalidProposal (lastUpdateIdx allUps)
            (i :: seen) (idx + 1) ps with
        | ok rest => exfalso; simp [goUpdatesSameLeaf, hps, hcond, hrec] at h
        | error e2 =>
          have he : e2 = e := by
            simp [goUpdatesSameLeaf, hps, hcond, hrec] at h
            exact h
          subst he
          have hseen2 : ∀ i2 j2, lastUpdateIdx allUps i2 = some j2 → idx + 1 ≤ j2 →
              (i2 ∈ i :: seen ↔ i2 ∈ removed) := by
            intro i2 j2 hl2 hge
            by_cases hi2 : i2 = i
            · subst hi2
              rw [hcond.1] at hl2
              have := Option.some.inj hl2
              omega
            · rw [List.mem_cons]
              have := hseen i2 j2 hl2 (by omega)
              simp [hi2, this]
          rcases ih (idx + 1) (i :: seen) e2 hdrop2 hseen2 hrec with ⟨i2, he2, hb2⟩
          refine ⟨i2, he2, ?_⟩
          unfold badUpdateFor
          simp [hb2]
      · have he : e = .moreThanOneProposalForLeaf i := by
          simp [goUpdatesSameLeaf, hps, hcond, FilterStrategy.ignoreRef] at h
          exact h.symm
        refine ⟨i, he, ?_⟩
        unfold badUpdateFor
        rw [hps]
        have hoff : (ps.any (fun q => decide (q.sender = Sender.member i)) ||
            decide (i ∈ removed)) = true := by
          by_cases hlast : lastUpdateIdx allUps i = some idx
          · have hin : i ∈ seen := by
              by_contra hin
              exact hcond ⟨hlast, hin⟩
            have hrem : i ∈ removed := (hseen i idx hlast (Nat.le_refl idx)).mp hin
            simp [hrem]
          · cases hany : ps.any (fun q => decide (q.sender = Sender.member i)) with
            | true => simp
            | false =>
              exact absurd ((lastUpdateIdx_at allUps idx p ps i hdrop hps).mpr hany) hlast
        simp [hoff]
    | external k =>
      cases hrec : goUpdatesSameLeaf .failInvalidProposal (lastUpdateIdx allUps)
          seen (idx + 1) ps with
      | ok rest => exfalso; simp [goUpdatesSameLeaf, hps, hrec] at h
      | error e2 =>
        have he : e2 = e := by
          simp [goUpdatesSameLeaf, hps, hrec] at h
          exact h
        subst he
        rcases ih (idx + 1) seen e2 hdrop2
            (fun i2 j2 hl2 hge => hseen i2 j2 hl2 (by omega)) hrec with ⟨i2, he2, hb2⟩
        refine ⟨i2, he2, ?_⟩
        unfold badUpdateFor
        simp [hb2]
    | newMemberProposal =>
      cases hrec : goUpdatesSameLeaf .failInvalidProposal (lastUpdateIdx allUps)
          seen (idx + 1) ps with
      | ok rest => exfalso; simp [goUpdatesSameLeaf, hps, hrec] at h
      | error e2 =>
        have he : e2 = e := by
          simp [goUpdatesSameLeaf, hps, hrec] at h
          exact h
        subst he
        rcases ih (idx + 1) seen e2 hdrop2
            (fun i2 j2 hl2 hge => hseen i2 j2 hl2 (by omega)) hrec with ⟨i2, he2, hb2⟩
        refine ⟨i2, he2, ?_⟩
        unfold badUpdateFor
        simp [hb2]
    | newMemberCommit =>
      cases hrec : goUpdatesSameLeaf .failInvalidProposal (lastUpdateIdx allUps)
          seen (idx + 1) ps with
      | ok rest => exfalso; simp [goUpdatesSameLeaf, hps, hrec] at h
      | error e2 =>
        have he : e2 = e := by
          simp [goUpdatesSameLeaf, hps, hrec] at h
          exact h
        subst he
        rcases ih (idx + 1) seen e2 hdrop2
            (fun i2 j2 hl2 hge => hseen i2 j2 hl2 (by omega)) hrec with ⟨i2, he2, hb2⟩
        refine ⟨i2, he2, ?_⟩
        unfold badUpdateFor
        simp [hb2]

/-- Under the ignoring strategy a successful update phase keeps exactly the
last update per Member sender whose leaf is not removed, and every update
from a non-Member sender. -/
theorem goUpd_ignore_ok (allUps : List (ProposalInfo UpdateProposal))
    (removed : List Nat) :
    ∀ (ups : List (ProposalInfo UpdateProposal)) (idx : Nat) (seen : List Nat)
      (out : List (ProposalInfo UpdateProposal)),
      allUps.drop idx = ups →
      (∀ i j, lastUpdateIdx allUps i = some j → idx ≤ j → (i ∈ seen ↔ i ∈ removed)) →
      goUpdatesSameLeaf .ignoreInvalidByRefProposal (lastUpdateIdx allUps) seen idx ups = .ok out →
      out = keptUpdatesSpec removed ups := by
  intro ups
  induction ups with
  | nil =>
    intro idx seen out _ _ h
    have hout : out = [] := by simpa [goUpdatesSameLeaf] using h.symm
    simpa [keptUpdatesSpec] using hout
  | cons p ps ih =>
    intro idx seen out hdrop hseen h
    have hdrop2 : allUps.drop (idx + 1) = ps := by
      have hdd : List.drop 1 (List.drop idx allUps) = List.drop (idx + 1) allUps := by
        rw [List.drop_drop]
      rw [← hdd, hdrop]
      rfl
    cases hps : p.sender with
    | member i =>
      by_cases hcond : lastUpdateIdx allUps i = some idx ∧ i ∉ seen
      · have hany := (lastUpdateIdx_at allUps idx p ps i hdrop hps).mp hcond.1
        have hrem : i ∉ removed := fun hr =>
          hcond.2 ((hseen i idx hcond.1 (Nat.le_refl idx)).mpr hr)
        cases hrec : goUpdatesSameLeaf .ignoreInvalidByRefProposal (lastUpdateIdx allUps)
            (i :: seen) (idx + 1) ps with
        | error e => exfalso; simp [goUpdatesSameLeaf, hps, hcond, hrec] at h
        | ok rest =>
          have hout : out = p :: rest := by
            have h2 := h
            simp [goUpdatesSameLeaf, hps, hcond, hrec] at h2
            exact h2.symm
          have hseen2 : ∀ i2 j2, lastUpdateIdx allUps i2 = some j2 → idx + 1 ≤ j2 →
              (i2 ∈ i :: seen ↔ i2 ∈ removed) := by
            intro i2 j2 hl2 hge
            by_cases hi2 : i2 = i
            · subst hi2
              rw [hcond.1] at hl2
              have := Option.some.inj hl2
              omega
            · rw [List.mem_cons]
              have := hseen i2 j2 hl2 (by omega)
              simp [hi2, this]
          have ihr := ih (idx + 1) (i :: seen) rest hdrop2 hseen2 hrec
          rw [hout, ihr]
          simp only [keptUpdatesSpec]
          rw [hps]
          simp [hany, hrem]
      · have hoff : (ps.any (fun q => decide (q.sender = Sender.member i)) ||
            decide (i ∈ removed)) = true := by
          by_cases hlast : lastUpdateIdx allUps i = some idx
          · have hin : i ∈ seen := by
              by_contra hin
              exact hcond ⟨hlast, hin⟩
            have hrem : i ∈ removed := (hseen i idx hlast (Nat.le_refl idx)).mp hin
            simp [hrem]
          · cases hany : ps.any (fun q => decide (q.sender = Sender.member i)) with
            | true => simp
            | false =>
              exact absurd ((lastUpdateIdx_at allUps idx p ps i hdrop hps).mpr hany) hlast
        cases hbr : p.byRef with
        | false =>
          exfalso
          simp [goUpdatesSameLeaf, hps, hcond, FilterStrategy.ignoreRef, hbr] at h
        | true =>
          have hrec : goUpdatesSameLeaf .ignoreInvalidByRefProposal (lastUpdateIdx allUps)
              seen (idx + 1) ps = .ok out := by
            simpa [goUpdatesSameLeaf, hps, hcond, FilterStrategy.ignoreRef, hbr] using h
          have ihr := ih (idx + 1) seen out hdrop2
            (fun i2 j2 hl2 hge => hseen i2 j2 hl2 (by omega)) hrec
          rw [ihr]
          simp only [keptUpdatesSpec]
          rw [hps]
          simp [hoff]
    | external k =>
      cases hrec : goUpdatesSameLeaf .ignoreInvalidByRefProposal (lastUpdateIdx allUps)
          seen (idx + 1) ps with
      | error e => exfalso; simp [goUpdatesSameLeaf, hps, hrec] at h
      | ok rest =>
        have hout : out = p :: rest := by
          have h2 := h
          simp [goUpdatesSameLeaf, hps, hrec] at h2
          exact h2.symm
        have ihr := ih (idx + 1) seen rest hdrop2
          (fun i2 j2 hl2 hge => hseen i2 j2 hl2 (by omega)) hrec
        rw [hout, ihr]
        simp only [keptUpdatesSpec]
        rw [hps]
    | newMemberProposal =>
      cases hrec : goUpdatesSameLeaf .ignoreInvalidByRefProposal (lastUpdateIdx allUps)
          seen (idx + 1) ps with
      | error e => exfalso; simp [goUpdatesSameLeaf, hps, hrec] at h
      | ok rest =>
        have hout : out = p :: rest := by
          have h2 := h
          simp [goUpdatesSameLeaf, hps, hrec] at h2
          exact h2.symm
        have ihr := ih (idx + 1) seen rest hdrop2
          (fun i2 j2 hl2 hge => hseen i2 j2 hl2 (by omega)) hrec
        rw [hout, ihr]
        simp only [keptUpdatesSpec]
        rw [hps]
    | newMemberCommit =>
      cases hrec : goUpdatesSameLeaf .ignoreInvalidByRefProposal (lastUpdateIdx allUps)
          seen (idx + 1) ps with
      | error e => exfalso; simp [goUpdatesSameLeaf, hps, hrec] at h
      | ok rest =>
        have hout : out = p :: rest := by
          have h2 := h
          simp [goUpdatesSameLeaf, hps, hrec] at h2
          exact h2.symm
        have ihr := ih (idx + 1) seen rest hdrop2
          (fun i2 j2 hl2 hge => hseen i2 j2 hl2 (by omega)) hrec
        rw [hout, ihr]
        simp only [keptUpdatesSpec]
        rw [hps]

/-- C5: under FailInvalidProposal, filter_out_extra_removal_or_update_for_
same_leaf succeeds (leaving the bundle unchanged) exactly when no leaf
offends, an abort reports MoreThanOneProposalForLeaf(i) for an offending
leaf i — where leaf i offends exactly when the bundle contains a second
Remove for leaf i, an Update from Member(i) that is not the last Update
from that sender, or an Update from Member(i) together with a Remove for
leaf i — and under IgnoreInvalidByRefProposal a successful run keeps
exactly the first Remove per leaf and the last Update per Member sender
whose leaf is not removed (all other senders' updates are kept), so at
most one mutation per leaf survives. -/
theorem c5_same_leaf_filter (b : ProposalBundle) :
    (filterOutExtraRemovalOrUpdateForSameLeaf .failInvalidProposal b = .ok b ↔
      ∀ i, moreThanOneForLeafSpec b i = false) ∧
    (∀ e, filterOutExtraRemovalOrUpdateForSameLeaf .failInvalidProposal b = .error e →
      ∃ i, e = .moreThanOneProposalForLeaf i ∧ moreThanOneForLeafSpec b i = true) ∧
    (∀ b2, filterOutExtraRemovalOrUpdateForSameLeaf .ignoreInvalidByRefProposal b = .ok b2 →
      b2 = { b with removals := keptRemovalsSpec [] b.removals,
                    updates := keptUpdatesSpec
                      (b.removals.map (fun r => r.proposal.toRemove)) b.updates }) := by
  refine ⟨⟨?_, ?_⟩, ?_, ?_⟩
  · intro h i
    cases h1 : goRemovalsSameLeaf .failInvalidProposal [] b.removals with
    | error e => simp [filterOutExtraRemovalOrUpdateForSameLeaf, h1] at h
    | ok out =>
      obtain ⟨rems, sF⟩ := out
      rcases goRem_fail_ok b.removals [] (rems, sF) h1 with ⟨hr1, hr2, hr3⟩
      cases h2 : goUpdatesSameLeaf .failInvalidProposal (lastUpdateIdx b.updates) sF 0
          b.updates with
      | error e => simp [filterOutExtraRemovalOrUpdateForSameLeaf, h1, h2] at h
      | ok ups =>
        have hseen : ∀ i2 j2, lastUpdateIdx b.updates i2 = some j2 → 0 ≤ j2 →
            (i2 ∈ sF ↔ i2 ∈ b.removals.map (fun r => r.proposal.toRemove)) := by
          intro i2 j2 _ _
          rw [hr3 i2]
          simp [List.mem_map]
        rcases goUpd_fail_ok b.updates (b.removals.map (fun r => r.proposal.toRemove))
            b.updates 0 sF ups (List.drop_zero _) hseen h2 with ⟨hu1, hu2⟩
        unfold moreThanOneForLeafSpec
        rw [hr2 i, hu2 i]
        rfl
  · intro h
    have hdup : ∀ i, hasDupRemoveFor [] i b.removals = false := by
      intro i
      have := h i
      unfold moreThanOneForLeafSpec at this
      exact (Bool.or_eq_false_iff.1 this).1
    have hbad : ∀ i, badUpdateFor (b.removals.map (fun r => r.proposal.toRemove))
        i b.updates = false := by
      intro i
      have := h i
      unfold moreThanOneForLeafSpec at this
      exact (Bool.or_eq_false_iff.1 this).2
    rcases goRem_fail_ok_exists b.removals [] hdup with ⟨sF, h1⟩
    rcases goRem_fail_ok b.removals [] (b.removals, sF) h1 with ⟨_, _, hr3⟩
    have hseen : ∀ i2 j2, lastUpdateIdx b.updates i2 = some j2 → 0 ≤ j2 →
        (i2 ∈ sF ↔ i2 ∈ b.removals.map (fun r => r.proposal.toRemove)) := by
      intro i2 j2 _ _
      rw [hr3 i2]
      simp [List.mem_map]
    have h2 := goUpd_fail_exists b.updates
      (b.removals.map (fun r => r.proposal.toRemove)) b.updates 0 sF
      (List.drop_zero _) hseen hbad
    simp [filterOutExtraRemovalOrUpdateForSameLeaf, h1, h2]
  · intro e h
    cases h1 : goRemovalsSameLeaf .failInvalidProposal [] b.removals with
    | error e2 =>
      have he : e2 = e := by
        simp [filterOutExtraRemovalOrUpdateForSameLeaf, h1] at h
        exact h
      subst he
      rcases goRem_fail_err b.removals [] e2 h1 with ⟨i, he, hdup⟩
      refine ⟨i, he, ?_⟩
      unfold moreThanOneForLeafSpec
      simp [hdup]
    | ok out =>
      obtain ⟨rems, sF⟩ := out
      rcases goRem_fail_ok b.removals [] (rems, sF) h1 with ⟨hr1, hr2, hr3⟩
      cases h2 : goUpdatesSameLeaf .failInvalidProposal (lastUpdateIdx b.updates) sF 0
          b.updates with
      | ok ups => simp [filterOutExtraRemovalOrUpdateForSameLeaf, h1, h2] at h
      | error e2 =>
        have he : e2 = e := by
          simp [filterOutExtraRemovalOrUpdateForSameLeaf, h1, h2] at h
          exact h
        subst he
        have hseen : ∀ i2 j2, lastUpdateIdx b.updates i2 = some j2 → 0 ≤ j2 →
            (i2 ∈ sF ↔ i2 ∈ b.removals.map (fun r => r.proposal.toRemove)) := by
          intro i2 j2 _ _
          rw [hr3 i2]
          simp [List.mem_map]
        rcases goUpd_fail_err b.updates
            (b.removals.map (fun r => r.proposal.toRemove)) b.updates 0 sF e2
            (List.drop_zero _) hseen h2 with ⟨i, he, hbad⟩
        refine ⟨i, he, ?_⟩
        unfold moreThanOneForLeafSpec
        simp [hbad]
  · intro b2 h
    cases h1 : goRemovalsSameLeaf .ignoreInvalidByRefProposal [] b.removals with
    | error e => simp [filterOutExtraRemovalOrUpdateForSameLeaf, h1] at h
    | ok out =>
      obtain ⟨rems, sF⟩ := out
      rcases goRem_ignore_ok b.removals [] (rems, sF) h1 with ⟨hr1, hr3⟩
      cases h2 : goUpdatesSameLeaf .ignoreInvalidByRefProposal (lastUpdateIdx b.updates)
          sF 0 b.updates with
      | error e => simp [filterOutExtraRemovalOrUpdateForSameLeaf, h1, h2] at h
      | ok ups =>
        have hseen : ∀ i2 j2, lastUpdateIdx b.updates i2 = some j2 → 0 ≤ j2 →
            (i2 ∈ sF ↔ i2 ∈ b.removals.map (fun r => r.proposal.toRemove)) := by
          intro i2 j2 _ _
          rw [hr3 i2]
          simp [List.mem_map]
        have hu := goUpd_ignore_ok b.updates
          (b.removals.map (fun r => r.proposal.toRemove)) b.updates 0 sF ups
          (List.drop_zero _) hseen h2
        have hb2 : b2 = { b with removals := rems, updates := ups } := by
          have h3 := h
          simp [filterOutExtraRemovalOrUpdateForSameLeaf, h1, h2] at h3
          exact h3.symm
        have hr1b : rems = keptRemovalsSpec [] b.removals := hr1
        rw [hb2, hr1b, hu]

/-- C5 witness: under IgnoreInvalidByRefProposal, a batch with a duplicate
by-reference Remove for leaf 1 and two Updates from Member(2) (the first
by reference) keeps the first Remove and the last Update. -/
theorem c5_same_leaf_filter_witness :
    (⟨[], [⟨⟨⟨[0], ⟨.basic [0], [0]⟩, ⟨[], [], [], [], []⟩, []⟩⟩, .member 2, false⟩],
      [⟨⟨1⟩, .member 0, false⟩], [], [], [], [], []⟩ : ProposalBundle) =
      { (⟨[], [⟨⟨⟨[0], ⟨.basic [0], [0]⟩, ⟨[], [], [], [], []⟩, []⟩⟩, .member 2, true⟩,
              ⟨⟨⟨[0], ⟨.basic [0], [0]⟩, ⟨[], [], [], [], []⟩, []⟩⟩, .member 2, false⟩],
          [⟨⟨1⟩, .member 0, false⟩, ⟨⟨1⟩, .member 9, true⟩], [], [], [], [], []⟩ :
          ProposalBundle) with
        removals := keptRemovalsSpec []
          [⟨⟨1⟩, .member 0, false⟩, ⟨⟨1⟩, .member 9, true⟩],
        updates := keptUpdatesSpec
          ([⟨⟨1⟩, .member 0, false⟩,
            (⟨⟨1⟩, .member 9, true⟩ : ProposalInfo RemoveProposal)].map
            (fun r => r.proposal.toRemove))
          [⟨⟨⟨[0], ⟨.basic [0], [0]⟩, ⟨[], [], [], [], []⟩, []⟩⟩, .member 2, true⟩,
           ⟨⟨⟨[0], ⟨.basic [0], [0]⟩, ⟨[], [], [], [], []⟩, []⟩⟩, .member 2, false⟩] } :=
  (c5_same_leaf_filter
    ⟨[], [⟨⟨⟨[0], ⟨.basic [0], [0]⟩, ⟨[], [], [], [], []⟩, []⟩⟩, .member 2, true⟩,
          ⟨⟨⟨[0], ⟨.basic [0], [0]⟩, ⟨[], [], [], [], []⟩, []⟩⟩, .member 2, false⟩],
      [⟨⟨1⟩, .member 0, false⟩, ⟨⟨1⟩, .member 9, true⟩], [], [], [], [], []⟩).2.2
    ⟨[], [⟨⟨⟨[0], ⟨.basic [0], [0]⟩, ⟨[], [], [], [], []⟩, []⟩⟩, .member 2, false⟩],
      [⟨⟨1⟩, .member 0, false⟩], [], [], [], [], []⟩ rfl

/-! ## State-preservation and tree lemmas (claims C3 and C7) -/

/-- The custom-proposal filter only touches the custom list: the tree, the
external leaf index, the group-context-extensions proposals and the other
bundle fields come through unchanged. -/
theorem filterCustom_preserves (s : FilterStrategy) (st st2 : ProposalState)
    (h : filterOutUnsupportedCustomProposals s st = .ok st2) :
    st2.tree = st.tree ∧ st2.externalLeafIndex = st.externalLeafIndex ∧
    st2.proposals.groupContextExts = st.proposals.groupContextExts := by
  rcases bind_ok_inv h with ⟨customs, _, hpure⟩
  have h2 : st2 = { st with proposals := { st.proposals with customs := customs } } := by
    simpa using hpure.symm
  rw [h2]
  exact ⟨rfl, rfl, rfl⟩

/-- The element at the leftmost blank slot is a blank inside the list. -/
theorem leftmostBlank_spec (t : TreeKemPublic) (i : Nat)
    (h : t.leftmostBlank = some i) :
    i < t.leaves.length ∧ t.leaves.get? i = some none := by
  unfold TreeKemPublic.leftmostBlank at h
  cases hf : t.leaves.enum.find? (fun p => p.2.isNone) with
  | none => rw [hf] at h; exact Option.noConfusion h
  | some x =>
    rw [hf] at h
    have hx : x.1 = i := Option.some.inj h
    have hmem := List.mem_of_find?_eq_some hf
    have hpred := List.find?_some hf
    have hget : t.leaves.get? x.1 = some x.2 := List.mem_enum_iff_get?.1 hmem
    have hnone : x.2 = none := by
      cases hx2 : x.2 with
      | none => rfl
      | some a => rw [hx2] at hpred; simp at hpred
    constructor
    · have : x.1 < t.leaves.length := by
        have := List.get?_eq_some.1 hget
        rcases this with ⟨hlt, _⟩
        exact hlt
      omega
    · rw [← hx, hget, hnone]

/-- A small append lemma: the element appended at the end sits at the old
length. -/
theorem get?_append_singleton {α : Type} (l : List α) (a : α) :
    (l ++ [a]).get? l.length = some a := by
  induction l with
  | nil => rfl
  | cons x xs ih => simpa using ih

/-- A successful single-leaf addition places the leaf at the returned
index. -/
theorem addOneLeaf_places (ctx : ApplierCtx) (t t2 : TreeKemPublic)
    (leaf : LeafNode) (i : Nat) (h : addOneLeaf ctx t leaf = .ok (t2, i)) :
    t2.leaves.get? i = some (some leaf) := by
  unfold addOneLeaf at h
  by_cases hok : ctx.addLeafOk leaf = false
  · simp [hok] at h
  · rw [if_neg hok] at h
    by_cases hdup : t.hasDuplicateOf leaf
    · simp [hdup] at h
    · rw [if_neg hdup] at h
      cases hb : t.leftmostBlank with
      | some i0 =>
        rw [hb] at h
        have h2 : (Except.ok (t.setLeaf i0 (some leaf), i0) :
            Except RatchetTreeError (TreeKemPublic × Nat)) = Except.ok (t2, i) := h
        have h3 := Except.ok.inj h2
        have h4 : t.setLeaf i0 (some leaf) = t2 := congrArg Prod.fst h3
        have h5 : i0 = i := congrArg Prod.snd h3
        rcases leftmostBlank_spec t i0 hb with ⟨hlt, _⟩
        rw [← h4, ← h5]
        exact List.get?_set_eq_of_lt _ hlt
      | none =>
        rw [hb] at h
        have h2 : (Except.ok ((⟨t.leaves ++ [some leaf]⟩ : TreeKemPublic),
            t.leaves.length) :
            Except RatchetTreeError (TreeKemPublic × Nat)) = Except.ok (t2, i) := h
        have h3 := Except.ok.inj h2
        have h4 : (⟨t.leaves ++ [some leaf]⟩ : TreeKemPublic) = t2 :=
          congrArg Prod.fst h3
        have h5 : t.leaves.length = i := congrArg Prod.snd h3
        rw [← h4, ← h5]
        exact get?_append_singleton t.leaves (some leaf)

/-- A successful insertion of the external leaf records an index that holds
that leaf in the resulting tree. -/
theorem insertExternalLeaf_places (ctx : ApplierCtx) (st st2 : ProposalState)
    (leaf : LeafNode) (h : insertExternalLeaf ctx st leaf = .ok st2) :
    ∃ i, st2.externalLeafIndex = some i ∧
      st2.tree.leaves.get? i = some (some leaf) := by
  unfold insertExternalLeaf at h
  cases ha : TreeKemPublic.addLeaves ctx st.tree [leaf] with
  | error e => rw [ha] at h; exact Except.noConfusion h
  | ok out =>
    obtain ⟨t, idxs⟩ := out
    rw [ha] at h
    have hst2 : st2 = { st with tree := t, externalLeafIndex := idxs.head? } :=
      (Option.some.inj (congrArg (fun x => match x with
        | Except.ok v => some v | Except.error _ => none) h)).symm
    cases h1 : addOneLeaf ctx st.tree leaf with
    | error e =>
      exfalso
      simp [TreeKemPublic.addLeaves, h1] at ha
    | ok out1 =>
      obtain ⟨t2, i⟩ := out1
      have hti : t = t2 ∧ idxs = [i] := by
        have ha2 := ha
        simp [TreeKemPublic.addLeaves, h1] at ha2
        exact ⟨ha2.1.symm, ha2.2.symm⟩
      refine ⟨i, ?_, ?_⟩
      · rw [hst2]
        simp [hti.2]
      · rw [hst2]
        show t.leaves.get? i = some (some leaf)
        rw [hti.1]
        exact addOneLeaf_places ctx st.tree t2 leaf i h1

/-! ## Claim C7: external (new-member) commits -/

/-- C7: for a NewMemberCommit sender the applier fails with
ExternalCommitMustHaveNewLeaf when no external leaf was supplied; with
ExternalCommitMustHaveExactlyOneExternalInit unless exactly one
ExternalInit is present; with ExternalCommitWithMoreThanOneRemove on two
or more Removes; with ExternalCommitRemovesOtherIdentity when the single
Remove targets a leaf whose identity the provider does not certify as a
predecessor of the joining leaf; with InvalidProposalTypeInExternalCommit
when a proposal type outside ExternalInit / Remove / PSK appears; with
OnlyMembersCanCommitProposalsByRef when any proposal is by reference; and
on success it returns a state whose external_leaf_index is set and points
at the slot where add_leaves inserted the joining leaf. -/
theorem c7_external_commit (ctx : ApplierCtx) (s : FilterStrategy)
    (b : ProposalBundle) (time : Option Nat) :
    (ctx.externalLeaf = none →
      applyProposals ctx s .newMemberCommit b time =
        .error .externalCommitMustHaveNewLeaf) ∧
    (∀ l, ctx.externalLeaf = some l → ¬b.extInits.length = 1 →
      applyProposals ctx s .newMemberCommit b time =
        .error .externalCommitMustHaveExactlyOneExternalInit) ∧
    (∀ l r1 r2 rest, ctx.externalLeaf = some l → b.extInits.length = 1 →
      b.removals = r1 :: r2 :: rest →
      applyProposals ctx s .newMemberCommit b time =
        .error .externalCommitWithMoreThanOneRemove) ∧
    (∀ l r existing, ctx.externalLeaf = some l → b.extInits.length = 1 →
      b.removals = [r] →
      ctx.originalTree.getLeafNode r.proposal.toRemove = .ok existing →
      ctx.identityProvider.validSuccessor existing.signingIdentity
        l.signingIdentity = .ok false →
      applyProposals ctx s .newMemberCommit b time =
        .error .externalCommitRemovesOtherIdentity) ∧
    (∀ l t, ctx.externalLeaf = some l → b.extInits.length = 1 →
      ensureAtMostOneRemovalForSelf ctx b l = .ok () →
      b.proposalTypes.find? (fun ty =>
        !(decide (ty = ptExternalInit) || decide (ty = ptRemove) ||
          decide (ty = ptPsk))) = some t →
      applyProposals ctx s .newMemberCommit b time =
        .error (.invalidProposalTypeInExternalCommit t)) ∧
    (∀ l, ctx.externalLeaf = some l → b.extInits.length = 1 →
      ensureAtMostOneRemovalForSelf ctx b l = .ok () →
      b.proposalTypes.find? (fun ty =>
        !(decide (ty = ptExternalInit) || decide (ty = ptRemove) ||
          decide (ty = ptPsk))) = none →
      b.anyByRef = true →
      applyProposals ctx s .newMemberCommit b time =
        .error .onlyMembersCanCommitProposalsByRef) ∧
    (∀ st, applyProposals ctx s .newMemberCommit b time = .ok st →
      ∃ l i, ctx.externalLeaf = some l ∧ st.externalLeafIndex = some i ∧
        st.tree.leaves.get? i = some (some l)) := by
  refine ⟨?_, ?_, ?_, ?_, ?_, ?_, ?_⟩
  · intro hel
    simp [applyProposals, applyProposalsFromNewMember, hel]
  · intro l hel hlen
    simp [applyProposals, applyProposalsFromNewMember, hel,
      ensureExactlyOneExternalInit, hlen]
  · intro l r1 r2 rest hel hlen hrem
    simp [applyProposals, applyProposalsFromNewMember, hel,
      ensureExactlyOneExternalInit, hlen, ensureAtMostOneRemovalForSelf, hrem]
  · intro l r existing hel hlen hrem hget hsucc
    simp [applyProposals, applyProposalsFromNewMember, hel,
      ensureExactlyOneExternalInit, hlen, ensureAtMostOneRemovalForSelf, hrem,
      ensureRemovalIsForSelf, hget, hsucc]
  · intro l t hel hlen hrm hfind
    simp only [Bool.not_or] at hfind
    simp [applyProposals, applyProposalsFromNewMember, hel,
      ensureExactlyOneExternalInit, hlen, hrm,
      ensureProposalsInExternalCommitAreAllowed, hfind]
  · intro l hel hlen hrm hfind hbr
    simp only [Bool.not_or] at hfind
    simp [applyProposals, applyProposalsFromNewMember, hel,
      ensureExactlyOneExternalInit, hlen, hrm,
      ensureProposalsInExternalCommitAreAllowed, hfind,
      ensureNoProposalByRef, hbr]
  · intro st h
    rcases bind_ok_inv h with ⟨st0, hnm, hcf⟩
    have hnm2 : applyProposalsFromNewMember ctx b time = .ok st0 := hnm
    rcases filterCustom_preserves s st0 st hcf with ⟨htree, hidx, _⟩
    unfold applyProposalsFromNewMember at hnm2
    cases hc : ctx.externalLeaf with
    | none =>
      rw [hc] at hnm2
      simp at hnm2
    | some l0 =>
      rw [hc] at hnm2
      simp only [ok_bind] at hnm2
      rcases bind_ok_inv hnm2 with ⟨u1, _, hrest2⟩
      rcases bind_ok_inv hrest2 with ⟨u2, _, hrest3⟩
      rcases bind_ok_inv hrest3 with ⟨u3, _, hrest4⟩
      rcases bind_ok_inv hrest4 with ⟨u4, _, hrest5⟩
      rcases bind_ok_inv hrest5 with ⟨b1, _, hrest6⟩
      rcases bind_ok_inv hrest6 with ⟨b2, _, hrest7⟩
      rcases bind_ok_inv hrest7 with ⟨st1, _, hins⟩
      have hins2 : insertExternalLeaf ctx st1 l0 = .ok st0 := hins
      rcases insertExternalLeaf_places ctx st1 st0 l0 hins2 with ⟨i, hi1, hi2⟩
      exact ⟨l0, i, rfl, hidx.trans hi1, htree ▸ hi2⟩

/-- C7 witness: a concrete external commit with exactly one by-value
ExternalInit succeeds and places the joining leaf at slot 1 of the
two-slot result tree. -/
theorem c7_external_commit_witness :
    ∃ l i, c7Ctx.externalLeaf = some l ∧
      (⟨⟨[some c7Leaf, some c7ExtLeaf]⟩,
        ⟨[], [], [], [], [], [⟨⟨[]⟩, .newMemberCommit, false⟩], [], []⟩,
        [], [], some 1⟩ : ProposalState).externalLeafIndex = some i ∧
      (⟨⟨[some c7Leaf, some c7ExtLeaf]⟩,
        ⟨[], [], [], [], [], [⟨⟨[]⟩, .newMemberCommit, false⟩], [], []⟩,
        [], [], some 1⟩ : ProposalState).tree.leaves.get? i = some (some l) :=
  (c7_external_commit c7Ctx .failInvalidProposal
    ⟨[], [], [], [], [], [⟨⟨[]⟩, .newMemberCommit, false⟩], [], []⟩
    none).2.2.2.2.2.2
    ⟨⟨[some c7Leaf, some c7ExtLeaf]⟩,
      ⟨[], [], [], [], [], [⟨⟨[]⟩, .newMemberCommit, false⟩], [], []⟩,
      [], [], some 1⟩ rfl

/-! ## Clearing the group-context-extensions proposal commutes with the
tree changes (claim C4) -/

@[simp]
theorem clearGce_tree (st : ProposalState) : st.clearGce.tree = st.tree := rfl

@[simp]
theorem clearGce_updates (st : ProposalState) :
    st.clearGce.proposals.updates = st.proposals.updates := rfl

@[simp]
theorem clearGce_additions (st : ProposalState) :
    st.clearGce.proposals.additions = st.proposals.additions := rfl

@[simp]
theorem clearGce_removals (st : ProposalState) :
    st.clearGce.proposals.removals = st.proposals.removals := rfl

/-- apply_tree_changes never reads nor writes the group-context-extensions
proposals: running it on a state with those proposals cleared yields the
cleared version of its result. -/
theorem applyTreeChanges_clearGce (ctx : ApplierCtx) (s : FilterStrategy)
    (st : ProposalState) (gexts : ExtensionList)
    (rc : Option RequiredCapabilitiesExt) (time : Option Nat) :
    applyTreeChanges ctx s st.clearGce gexts rc time =
      Except.map ProposalState.clearGce (applyTreeChanges ctx s st gexts rc time) := by
  unfold applyTreeChanges validateNewNodes
  simp only [clearGce_tree, clearGce_updates, clearGce_additions, clearGce_removals]
  cases h1 : goValidateUpdates ctx s gexts rc time st.proposals.updates with
  | error e => simp [h1, Except.map]
  | ok ups =>
    cases h2 : goValidateAdds ctx s gexts rc time st.proposals.additions with
    | error e => simp [h1, h2, Except.map]
    | ok adds =>
      simp only [h1, h2, ok_bind, pure_eq_ok]
      simp only [ProposalState.clearGce, ProposalBundle.clearGroupContextExtensions]
      cases h3 : goExtractUpdates s ups with
      | error e => simp [h3, Except.map]
      | ok out =>
        obtain ⟨ups2, updates⟩ := out
        simp only [h3, ok_bind]
        cases h4 : batchEdit ctx s (ups2.map (·.byRef))
            (st.proposals.removals.map (·.byRef))
            (adds.map (·.byRef)) st.tree updates
            (st.proposals.removals.map (·.proposal.toRemove))
            (adds.map (·.proposal.keyPackage.leafNode)) with
        | error e => simp [h4, Except.map]
        | ok acc =>
          simp [h4, Except.map, ProposalState.clearGce,
            ProposalBundle.clearGroupContextExtensions]

/-! ## Claim C4: the capability-switch flow -/

/-- C4: apply_proposals_with_new_capabilities first attempts the tree
changes (with an empty extension set and no required capabilities) and
validates the resulting tree against the new required capabilities and the
proposal's extension set; on success of that validation it returns the new
state; on failure, if the strategy ignores the group-context-extensions
proposal, it clears that proposal from the bundle and retries
apply_tree_changes with the original group extensions and original
required capabilities, and otherwise it returns the validation error.  The
source short-circuits the retry when the original extensions are empty and
no original required capabilities exist, returning the cleared new state
directly; by applyTreeChanges_clearGce that equals the retry, so the
flow below holds unconditionally. -/
theorem c4_new_capabilities_flow (ctx : ApplierCtx) (s : FilterStrategy)
    (st : ProposalState) (gce : ProposalInfo ExtensionList)
    (rc : Option RequiredCapabilitiesExt) (time : Option Nat) :
    applyProposalsWithNewCapabilities ctx s st gce rc time =
      (match applyTreeChanges ctx s st [] none time with
       | .error e => .error e
       | .ok newState =>
         match exceptAnd (newCapsCheck rc newState.tree)
             (newExtsCheck gce.proposal newState.tree) with
         | .ok _ => .ok newState
         | .error e =>
           if s.ignoreRef gce.byRef then
             applyTreeChanges ctx s st.clearGce ctx.originalGroupExtensions
               ctx.originalRequiredCapabilities time
           else .error e) := by
  unfold applyProposalsWithNewCapabilities
  cases h1 : applyTreeChanges ctx s st [] none time with
  | error e => simp [h1]
  | ok newState =>
    simp only [h1, ok_bind]
    cases h2 : exceptAnd (newCapsCheck rc newState.tree)
        (newExtsCheck gce.proposal newState.tree) with
    | ok u => simp [h2]
    | error e =>
      simp only [h2]
      by_cases hig : s.ignoreRef gce.byRef = true
      · cases horc : ctx.originalRequiredCapabilities with
        | some rc0 => simp [hig, horc]
        | none =>
          cases hemp : ctx.originalGroupExtensions.isEmpty with
          | false => simp [hig, horc, hemp]
          | true =>
            have hnil : ctx.originalGroupExtensions = [] :=
              List.isEmpty_iff.1 hemp
            simp only [hig, horc, hemp, if_pos]
            rw [hnil, applyTreeChanges_clearGce, h1]
            simp [hig, Except.map]
      · have hig2 : s.ignoreRef gce.byRef = false := by
          cases hx : s.ignoreRef gce.byRef with
          | true => exact absurd hx hig
          | false => rfl
        simp [hig2]

/-! ## Claim C3: capability consistency of a surviving
group-context-extensions proposal -/

@[simp]
theorem clearGce_gce (st : ProposalState) :
    st.clearGce.proposals.groupContextExts = [] := rfl

/-- apply_tree_changes leaves the group-context-extensions proposals of the
bundle untouched. -/
theorem applyTreeChanges_gce (ctx : ApplierCtx) (s : FilterStrategy)
    (st : ProposalState) (gexts : ExtensionList)
    (rc : Option RequiredCapabilitiesExt) (time : Option Nat)
    (st2 : ProposalState)
    (h : applyTreeChanges ctx s st gexts rc time = .ok st2) :
    st2.proposals.groupContextExts = st.proposals.groupContextExts := by
  unfold applyTreeChanges validateNewNodes at h
  cases h1 : goValidateUpdates ctx s gexts rc time st.proposals.updates with
  | error e => simp only [h1, error_bind] at h; exact Except.noConfusion h
  | ok ups =>
    cases h2 : goValidateAdds ctx s gexts rc time st.proposals.additions with
    | error e =>
      simp only [h1, h2, ok_bind, error_bind] at h
      exact Except.noConfusion h
    | ok adds =>
      simp only [h1, h2, ok_bind, pure_eq_ok] at h
      cases h3 : goExtractUpdates s ups with
      | error e => simp only [h3, error_bind] at h; exact Except.noConfusion h
      | ok out =>
        obtain ⟨ups2, updates⟩ := out
        simp only [h3, ok_bind] at h
        cases h4 : batchEdit ctx s (ups2.map (·.byRef))
            (st.proposals.removals.map (·.byRef))
            (adds.map (·.byRef)) st.tree updates
            (st.proposals.removals.map (·.proposal.toRemove))
            (adds.map (·.proposal.keyPackage.leafNode)) with
        | error e => simp [h4] at h
        | ok acc =>
          simp only [h4, ok_bind, pure_eq_ok, Except.ok.injEq] at h
          rw [← h]

/-- Result::and on unit results succeeds exactly when both sides do. -/
theorem exceptAnd_ok_inv (a b : Except ProposalFilterError Unit) (u : Unit)
    (h : exceptAnd a b = .ok u) : a = .ok () ∧ b = .ok () := by
  cases a with
  | ok v => exact ⟨rfl, h⟩
  | error e => simp [exceptAnd] at h

/-- The extra-GCE retain keeps no proposal once one was seen, hence at most
one overall. -/
theorem goExtraGce_spec (s : FilterStrategy) :
    ∀ (l : List (ProposalInfo ExtensionList)) (found : Bool)
      (out : List (ProposalInfo ExtensionList)),
      goExtraGce s found l = .ok out →
      (found = true → out = []) ∧ out.length ≤ 1 := by
  intro l
  induction l with
  | nil =>
    intro found out h
    simp only [goExtraGce, Except.ok.injEq] at h
    rw [← h]
    exact ⟨fun _ => rfl, by simp⟩
  | cons p ps ih =>
    intro found out h
    unfold goExtraGce at h
    rcases bind_ok_inv h with ⟨keep, hk, h⟩
    rcases bind_ok_inv h with ⟨rest, hr, h⟩
    have hout : out = if keep then p :: rest else rest := by
      simpa using h.symm
    have hrest0 : rest = [] := (ih true rest hr).1 rfl
    subst hrest0
    constructor
    · intro hf
      subst hf
      cases hig : s.ignoreRef p.byRef with
      | true =>
        simp [applyStrategy, hig] at hk
        rw [hout, hk]
        simp
      | false => simp [applyStrategy, hig] at hk
    · rw [hout]
      cases keep <;> simp

/-- filter_out_invalid_reinit does not touch the group-context-extensions
proposals. -/
theorem filterOutInvalidReinit_gce (s : FilterStrategy) (b : ProposalBundle)
    (pv : Nat) (b2 : ProposalBundle)
    (h : filterOutInvalidReinit s b pv = .ok b2) :
    b2.groupContextExts = b.groupContextExts := by
  rcases bind_ok_inv h with ⟨x, _, hp⟩
  have hb : b2 = { b with reinits := x } := by simpa using hp.symm
  rw [hb]

/-- filter_out_reinit_if_other_proposals does not touch the
group-context-extensions proposals. -/
theorem filterOutReinitAlone_gce (s : FilterStrategy) (b b2 : ProposalBundle)
    (h : filterOutReinitIfOtherProposals s b = .ok b2) :
    b2.groupContextExts = b.groupContextExts := by
  rcases bind_ok_inv h with ⟨x, _, hp⟩
  have hb : b2 = { b with reinits := x } := by simpa using hp.symm
  rw [hb]

/-- filter_out_external_init does not touch the group-context-extensions
proposals. -/
theorem filterOutExternalInit_gce (s : FilterStrategy) (c : Nat)
    (b b2 : ProposalBundle) (h : filterOutExternalInit s c b = .ok b2) :
    b2.groupContextExts = b.groupContextExts := by
  rcases bind_ok_inv h with ⟨x, _, hp⟩
  have hb : b2 = { b with extInits := x } := by simpa using hp.symm
  rw [hb]

/-- filter_out_invalid_psks does not touch the group-context-extensions
proposals. -/
theorem filterOutInvalidPsks_gce (s : FilterStrategy)
    (csp : CipherSuiteProviderM) (b : ProposalBundle)
    (v : ExternalPskIdValidatorM) (b2 : ProposalBundle)
    (h : filterOutInvalidPsks s csp b v = .ok b2) :
    b2.groupContextExts = b.groupContextExts := by
  rcases bind_ok_inv h with ⟨x, _, hp⟩
  have hb : b2 = { b with psks := x } := by simpa using hp.symm
  rw [hb]

/-- After filter_out_extra_group_context_extensions at most one
group-context-extensions proposal remains. -/
theorem filterOutExtraGce_len (s : FilterStrategy) (b b2 : ProposalBundle)
    (h : filterOutExtraGroupContextExtensions s b = .ok b2) :
    b2.groupContextExts.length ≤ 1 := by
  rcases bind_ok_inv h with ⟨gces, hg, hp⟩
  have hb : b2 = { b with groupContextExts := gces } := by simpa using hp.symm
  rw [hb]
  exact (goExtraGce_spec s b.groupContextExts false gces hg).2

/-- A bundle that passes the external-commit allowed-types check carries no
group-context-extensions proposal. -/
theorem ensureAllowed_gce_nil (b : ProposalBundle) (u : Unit)
    (h : ensureProposalsInExternalCommitAreAllowed b = .ok u) :
    b.groupContextExts = [] := by
  unfold ensureProposalsInExternalCommitAreAllowed at h
  cases hf : b.proposalTypes.find? (fun t =>
      !(decide (t = ptExternalInit) || decide (t = ptRemove) || decide (t = ptPsk))) with
  | some t => rw [hf] at h; exact Except.noConfusion h
  | none =>
    cases hl : b.groupContextExts with
    | nil => rfl
    | cons q rest =>
      exfalso
      have hmem : ptGroupContextExtensions ∈ b.proposalTypes := by
        simp [ProposalBundle.proposalTypes, hl]
      have hnone := List.find?_eq_none.1 hf _ hmem
      simp [ptGroupContextExtensions, ptExternalInit, ptRemove, ptPsk] at hnone

/-- filter_out_invalid_proposers, given a bundle without
group-context-extensions proposals, returns one without them too. -/
theorem filterOutInvalidProposers_gce_nil (s : FilterStrategy)
    (tree : TreeKemPublic) (gexts : ExtensionList) (b b2 : ProposalBundle)
    (hb : b.groupContextExts = [])
    (h : filterOutInvalidProposers s tree gexts b = .ok b2) :
    b2.groupContextExts = [] := by
  unfold filterOutInvalidProposers at h
  rcases bind_ok_inv h with ⟨adds, _, h⟩
  rcases bind_ok_inv h with ⟨ups, _, h⟩
  rcases bind_ok_inv h with ⟨rems, _, h⟩
  rcases bind_ok_inv h with ⟨psks, _, h⟩
  rcases bind_ok_inv h with ⟨reinits, _, h⟩
  rcases bind_ok_inv h with ⟨extInits, _, h⟩
  rcases bind_ok_inv h with ⟨gces, hg, h⟩
  have hgn : gces = [] := by
    rw [hb] at hg
    unfold validateProposerRetain retainE at hg
    exact (by simpa using hg : ([] : List (ProposalInfo ExtensionList)) = gces).symm
  have hb2 : b2 = { b with
    additions := adds, updates := ups, removals := rems,
    psks := psks, reinits := reinits, extInits := extInits,
    groupContextExts := gces } := by
    simpa using h.symm
  rw [hb2, hgn]

/-- When apply_proposals_with_new_capabilities succeeds on a state whose
bundle carries exactly the given group-context-extensions proposal, every
group-context-extensions proposal of the result is capability-consistent
with the result's tree. -/
theorem applyPWNC_consistent (ctx : ApplierCtx) (s : FilterStrategy)
    (st : ProposalState) (p : ProposalInfo ExtensionList)
    (caps : Option RequiredCapabilitiesExt) (time : Option Nat)
    (st2 : ProposalState)
    (hgce : st.proposals.groupContextExts = [p])
    (hcaps : getRequiredCapabilities p.proposal = .ok caps)
    (h : applyProposalsWithNewCapabilities ctx s st p caps time = .ok st2) :
    ∀ q ∈ st2.proposals.groupContextExts, gceConsistent q st2.tree := by
  unfold applyProposalsWithNewCapabilities at h
  cases h1 : applyTreeChanges ctx s st [] none time with
  | error e => simp only [h1, error_bind] at h; exact Except.noConfusion h
  | ok newState =>
    simp only [h1, ok_bind] at h
    cases h2 : exceptAnd (newCapsCheck caps newState.tree)
        (newExtsCheck p.proposal newState.tree) with
    | ok u =>
      rw [h2] at h
      have hst : newState = st2 := by simpa using h
      subst hst
      have hg : newState.proposals.groupContextExts = [p] := by
        rw [applyTreeChanges_gce ctx s st [] none time newState h1, hgce]
      intro q hq
      rw [hg] at hq
      have hq2 : q = p := by simpa using hq
      subst hq2
      obtain ⟨hca, hcb⟩ := exceptAnd_ok_inv _ _ u h2
      constructor
      · intro rc hrc
        have hcapseq : caps = some rc := by
          have := hcaps.symm.trans hrc
          simpa using this
        subst hcapseq
        intro il hil
        unfold newCapsCheck at hca
        have hca2 : (match newState.tree.nonEmptyLeaves.find?
              (fun pr => !reqCapsB rc pr.2) with
            | some _ =>
              (Except.error ProposalFilterError.leafNodeValidationError :
                Except ProposalFilterError Unit)
            | none => Except.ok ()) = Except.ok () := hca
        cases hf : newState.tree.nonEmptyLeaves.find? (fun pr => !reqCapsB rc pr.2) with
        | some w => rw [hf] at hca2; exact Except.noConfusion hca2
        | none =>
          have hall := List.find?_eq_none.1 hf il hil
          simpa using hall
      · intro e he hdef il hil
        unfold newExtsCheck at hcb
        cases hf : ((q.proposal.map (·.extType)).filter
            (fun ty => !extTypeIsDefault ty)).find?
            (fun ty => !newState.tree.nonEmptyLeaves.all
              (fun pr => decide (ty ∈ pr.2.capabilities.extensions))) with
        | some ty => rw [hf] at hcb; exact Except.noConfusion hcb
        | none =>
          have hmemf : e.extType ∈ (q.proposal.map (·.extType)).filter
              (fun ty => !extTypeIsDefault ty) := by
            refine List.mem_filter.2 ⟨List.mem_map.2 ⟨e, he, rfl⟩, ?_⟩
            simp [hdef]
          have hnot := List.find?_eq_none.1 hf _ hmemf
          have hall : newState.tree.nonEmptyLeaves.all
              (fun pr => decide (e.extType ∈ pr.2.capabilities.extensions)) = true := by
            simpa using hnot
          have hd := List.all_eq_true.1 hall il hil
          exact of_decide_eq_true hd
    | error e =>
      rw [h2] at h
      cases hig : s.ignoreRef p.byRef with
      | false => simp [hig] at h
      | true =>
        cases horc : ctx.originalRequiredCapabilities with
        | some rc0 =>
          simp only [hig, horc, if_true] at h
          have hnil2 : st2.proposals.groupContextExts = [] :=
            applyTreeChanges_gce ctx s st.clearGce ctx.originalGroupExtensions
              (some rc0) time st2 h
          intro q hq
          rw [hnil2] at hq
          exact absurd hq (List.not_mem_nil q)
        | none =>
          cases hemp : ctx.originalGroupExtensions.isEmpty with
          | true =>
            simp only [hig, horc, hemp, if_true] at h
            have hst : newState.clearGce = st2 := by simpa using h
            intro q hq
            rw [← hst] at hq
            simp only [clearGce_gce] at hq
            exact absurd hq (List.not_mem_nil q)
          | false =>
            simp only [hig, horc, hemp, if_true] at h
            have hnil2 : st2.proposals.groupContextExts = [] :=
              applyTreeChanges_gce ctx s st.clearGce ctx.originalGroupExtensions
                none time st2 h
            intro q hq
            rw [hnil2] at hq
            exact absurd hq (List.not_mem_nil q)

/-- insert_external_leaf only changes the tree and the recorded external
leaf index. -/
theorem insertExternalLeaf_proposals (ctx : ApplierCtx) (st : ProposalState)
    (leaf : LeafNode) (st2 : ProposalState)
    (h : insertExternalLeaf ctx st leaf = .ok st2) :
    st2.proposals = st.proposals := by
  unfold insertExternalLeaf at h
  cases ha : TreeKemPublic.addLeaves ctx st.tree [leaf] with
  | error e => rw [ha] at h; exact Except.noConfusion h
  | ok out =>
    obtain ⟨t, idxs⟩ := out
    rw [ha] at h
    have hst : st2 = { st with tree := t, externalLeafIndex := idxs.head? } := by
      simpa using h.symm
    rw [hst]

/-- When apply_proposal_changes succeeds on a state with at most one
group-context-extensions proposal, every group-context-extensions proposal
of the result is capability-consistent with the result's tree. -/
theorem applyProposalChanges_consistent (ctx : ApplierCtx)
    (s : FilterStrategy) (st : ProposalState) (time : Option Nat)
    (st2 : ProposalState)
    (hlen : st.proposals.groupContextExts.length ≤ 1)
    (h : applyProposalChanges ctx s st time = .ok st2) :
    ∀ q ∈ st2.proposals.groupContextExts, gceConsistent q st2.tree := by
  unfold applyProposalChanges at h
  cases hgp : st.proposals.groupContextExtensionsProposal with
  | none =>
    rw [hgp] at h
    simp only [ok_bind] at h
    have hnil2 : st2.proposals.groupContextExts = [] :=
      applyTreeChanges_gce ctx s st.clearGce ctx.originalGroupExtensions
        ctx.originalRequiredCapabilities time st2 h
    intro q hq
    rw [hnil2] at hq
    exact absurd hq (List.not_mem_nil q)
  | some p =>
    have hgceEq : st.proposals.groupContextExts = [p] := by
      unfold ProposalBundle.groupContextExtensionsProposal at hgp
      cases hl : st.proposals.groupContextExts with
      | nil => rw [hl] at hgp; exact Option.noConfusion hgp
      | cons q rest =>
        rw [hl] at hgp
        cases rest with
        | nil => simpa using hgp
        | cons r t =>
          rw [hl] at hlen
          simp at hlen
    rw [hgp] at h
    have h2 : (match getRequiredCapabilities p.proposal with
        | Except.ok capabilities =>
          applyProposalsWithNewCapabilities ctx s st p capabilities time
        | Except.error e =>
          if s.ignoreRef p.byRef then
            applyTreeChanges ctx s st.clearGce ctx.originalGroupExtensions
              ctx.originalRequiredCapabilities time
          else Except.error e) = Except.ok st2 := h
    cases hrc : getRequiredCapabilities p.proposal with
    | ok caps =>
      rw [hrc] at h2
      have h3 : applyProposalsWithNewCapabilities ctx s st p caps time =
          .ok st2 := h2
      exact applyPWNC_consistent ctx s st p caps time st2 hgceEq hrc h3
    | error e =>
      rw [hrc] at h2
      have h3 : (if s.ignoreRef p.byRef then
          applyTreeChanges ctx s st.clearGce ctx.originalGroupExtensions
            ctx.originalRequiredCapabilities time
          else Except.error e) = Except.ok st2 := h2
      cases hig : s.ignoreRef p.byRef with
      | false => simp [hig] at h3
      | true =>
        simp only [hig, if_true] at h3
        have hnil2 : st2.proposals.groupContextExts = [] :=
          applyTreeChanges_gce ctx s st.clearGce ctx.originalGroupExtensions
            ctx.originalRequiredCapabilities time st2 h3
        intro q hq
        rw [hnil2] at hq
        exact absurd hq (List.not_mem_nil q)

/-- apply_proposal_changes on a state without a group-context-extensions
proposal returns a state without one. -/
theorem applyProposalChanges_gce_nil (ctx : ApplierCtx) (s : FilterStrategy)
    (st : ProposalState) (time : Option Nat) (st2 : ProposalState)
    (hnil : st.proposals.groupContextExts = [])
    (h : applyProposalChanges ctx s st time = .ok st2) :
    st2.proposals.groupContextExts = [] := by
  unfold applyProposalChanges at h
  have hgp : st.proposals.groupContextExtensionsProposal = none := by
    unfold ProposalBundle.groupContextExtensionsProposal
    rw [hnil]
    rfl
  rw [hgp] at h
  simp only [ok_bind] at h
  exact applyTreeChanges_gce ctx s st.clearGce ctx.originalGroupExtensions
    ctx.originalRequiredCapabilities time st2 h

/-- The new-member (external commit) path never returns a
group-context-extensions proposal: the allowed-types check already rejects
any bundle carrying one. -/
theorem applyProposalsFromNewMember_gce_nil (ctx : ApplierCtx)
    (b : ProposalBundle) (time : Option Nat) (st0 : ProposalState)
    (h : applyProposalsFromNewMember ctx b time = .ok st0) :
    st0.proposals.groupContextExts = [] := by
  unfold applyProposalsFromNewMember at h
  cases hel : ctx.externalLeaf with
  | none => rw [hel] at h; simp at h
  | some l0 =>
    rw [hel] at h
    simp only [ok_bind] at h
    rcases bind_ok_inv h with ⟨u1, _, h⟩
    rcases bind_ok_inv h with ⟨u2, _, h⟩
    rcases bind_ok_inv h with ⟨u3, h3, h⟩
    rcases bind_ok_inv h with ⟨u4, _, h⟩
    rcases bind_ok_inv h with ⟨p1, hp1, h⟩
    rcases bind_ok_inv h with ⟨p2, hp2, h⟩
    rcases bind_ok_inv h with ⟨st1, hs1, h⟩
    have hbn : b.groupContextExts = [] := ensureAllowed_gce_nil b u3 h3
    have hn1 : p1.groupContextExts = [] :=
      filterOutInvalidProposers_gce_nil .failInvalidProposal ctx.originalTree
        ctx.originalGroupExtensions b p1 hbn hp1
    have hn2 : p2.groupContextExts = [] :=
      (filterOutInvalidPsks_gce .failInvalidProposal ctx.cipherSuite p1
        ctx.externalPskIdValidator p2 hp2).trans hn1
    have hn3 : st1.proposals.groupContextExts = [] :=
      applyProposalChanges_gce_nil ctx .failInvalidProposal
        (ProposalState.new ctx.originalTree p2) time st1 hn2 hs1
    rw [insertExternalLeaf_proposals ctx st1 l0 st0 h, hn3]

/-- When the member path of the applier succeeds, every surviving
group-context-extensions proposal is capability-consistent with the
returned tree. -/
theorem applyProposalsFromMember_consistent (ctx : ApplierCtx)
    (s : FilterStrategy) (c : Nat) (b : ProposalBundle) (time : Option Nat)
    (st2 : ProposalState)
    (h : applyProposalsFromMember ctx s c b time = .ok st2) :
    ∀ q ∈ st2.proposals.groupContextExts, gceConsistent q st2.tree := by
  unfold applyProposalsFromMember at h
  rcases bind_ok_inv h with ⟨b1, _, h⟩
  rcases bind_ok_inv h with ⟨b2, _, h⟩
  rcases bind_ok_inv h with ⟨b3, _, h⟩
  rcases bind_ok_inv h with ⟨b4, _, h⟩
  rcases bind_ok_inv h with ⟨b5, _, h⟩
  rcases bind_ok_inv h with ⟨b6, _, h⟩
  rcases bind_ok_inv h with ⟨b7, h7, h⟩
  rcases bind_ok_inv h with ⟨b8, h8, h⟩
  rcases bind_ok_inv h with ⟨b9, h9, h⟩
  rcases bind_ok_inv h with ⟨b10, h10, h⟩
  have hlen : b10.groupContextExts.length ≤ 1 := by
    rw [filterOutExternalInit_gce s c b9 b10 h10,
      filterOutReinitAlone_gce s b8 b9 h9,
      filterOutInvalidReinit_gce s b7 ctx.protocolVersion b8 h8]
    exact filterOutExtraGce_len s b6 b7 h7
  exact applyProposalChanges_consistent ctx s
    (ProposalState.new ctx.originalTree b10) time st2 hlen h

/-- C3: for every batch the applier accepts (any sender, strategy, bundle
and commit time on which apply_proposals returns Ok), if the returned
ProposalState still contains a group-context-extensions proposal, then
every non-blank leaf of the returned tree validates against that
proposal's required-capabilities extension (when present) and advertises,
in its capabilities extension list, every non-default extension type the
proposal lists. -/
theorem c3_capability_consistency (ctx : ApplierCtx) (s : FilterStrategy)
    (commitSender : Sender) (b : ProposalBundle) (time : Option Nat)
    (st : ProposalState)
    (h : applyProposals ctx s commitSender b time = .ok st) :
    ∀ p ∈ st.proposals.groupContextExts, gceConsistent p st.tree := by
  unfold applyProposals at h
  cases commitSender with
  | member i =>
    have h1 : (applyProposalsFromMember ctx s i b time >>= fun st0 =>
        filterOutUnsupportedCustomProposals s st0) = .ok st := h
    rcases bind_ok_inv h1 with ⟨st0, hd, hcf⟩
    rcases filterCustom_preserves s st0 st hcf with ⟨htree, _, hgce⟩
    intro p hp
    rw [hgce] at hp
    rw [htree]
    exact applyProposalsFromMember_consistent ctx s i b time st0 hd p hp
  | newMemberCommit =>
    have h1 : (applyProposalsFromNewMember ctx b time >>= fun st0 =>
        filterOutUnsupportedCustomProposals s st0) = .ok st := h
    rcases bind_ok_inv h1 with ⟨st0, hd, hcf⟩
    rcases filterCustom_preserves s st0 st hcf with ⟨htree, _, hgce⟩
    have h0 := applyProposalsFromNewMember_gce_nil ctx b time st0 hd
    intro p hp
    rw [hgce, h0] at hp
    exact absurd hp (List.not_mem_nil p)
  | external j => exact Except.noConfusion h
  | newMemberProposal => exact Except.noConfusion h

/-- C3 witness: a concrete one-member commit whose by-value
group-context-extensions proposal (a trivially satisfiable required
capabilities entry) survives the pipeline; the theorem yields its
capability consistency with the returned tree. -/
theorem c3_capability_consistency_witness :
    gceConsistent ⟨[⟨3, .reqCaps ⟨[], [], []⟩⟩], .member 0, false⟩
      ⟨[some c8Leaf]⟩ :=
  c3_capability_consistency c8Ctx .failInvalidProposal (.member 0)
    ⟨[], [], [], [], [], [],
      [⟨[⟨3, .reqCaps ⟨[], [], []⟩⟩], .member 0, false⟩], []⟩
    none
    ⟨⟨[some c8Leaf]⟩,
      ⟨[], [], [], [], [], [],
        [⟨[⟨3, .reqCaps ⟨[], [], []⟩⟩], .member 0, false⟩], []⟩,
      [], [], none⟩
    rfl
    ⟨[⟨3, .reqCaps ⟨[], [], []⟩⟩], .member 0, false⟩
    (by simp)

end MlsFiltering
